import Mathlib

/-!
Lift controller (`Lift/code.cpp`): shallow embedding and verified properties.

The sketch is a single-threaded Arduino program.  Its global variables become the
fields of `State`; every function becomes a state transformer.  Hardware output
(`digitalWrite`, `delay`) updates the pin levels and is appended to a chronological
`trace`; hardware input (`digitalRead`, `millis`) is passed in as arguments.

Conventions
* `int` floors are `Int`; the counter `queueSize` and loop indices are `Nat`;
  `unsigned long` values are `Nat` reduced modulo `2^32`.
* An array access outside the declared bounds (`floorQueue[5]`, `floorNumbers[5][7]`)
  is undefined behaviour in C++; the embedding returns `none` there.
* `while`/`for` loops whose bound is not a literal carry a fuel argument that is
  supplied by the enclosing function; running out of fuel yields `none`.
-/

namespace Lift

/-- Logic level of a digital pin (`LOW = 0`, `HIGH = 1`). -/
inductive Level
  | LOW
  | HIGH
  deriving DecidableEq, Repr

/-! ## Pin definitions (lines 1-7)

`A0 .. A5` come from the board header; the values are those of the Arduino Uno core
(`pins_arduino.h`: `A0 = 14, ..., A5 = 19`), the board on which pins `0 .. 13` and
`A0 .. A5` all exist. -/

def A0 : Nat := 14
def A1 : Nat := 15
def A2 : Nat := 16
def A3 : Nat := 17
def A4 : Nat := 18
def A5 : Nat := 19

def buttonPins : List Nat := [2, 3, 4, 5, 6]
def ledPins : List Nat := [A0, A1, A2, A3, A4]
def upLedPin : Nat := 1
def downLedPin : Nat := A5
def segmentPins : List Nat := [7, 8, 9, 10, 11, 12, 13]
def dpPin : Nat := 0

open Level in
/-- Floor number segment mappings (lines 14-20), rows for floors 1..5, columns A..G. -/
def floorNumbers : List (List Level) :=
  [ [HIGH, LOW, LOW, HIGH, HIGH, HIGH, HIGH],
    [LOW, LOW, HIGH, LOW, LOW, HIGH, LOW],
    [LOW, LOW, LOW, LOW, HIGH, HIGH, LOW],
    [HIGH, LOW, LOW, HIGH, HIGH, LOW, LOW],
    [LOW, HIGH, LOW, LOW, HIGH, LOW, LOW] ]

/-- Observable actions, in the order in which the program performs them.
`digitalWrite` and `delay` are the hardware effects; the `call*` constructors are
ghost markers recorded on entry to the named function. -/
inductive Event
  | digitalWrite (pin : Nat) (val : Level)
  | delay (ms : Nat)
  | callMoveToFloor (targetFloor : Int)
  | callDisplayFloor (floor : Int)
  | callLightFloorLed (floor : Int)
  | callProcessQueue
  | callStartInputPeriod
  deriving DecidableEq, Repr

/-- Global variables of the sketch (lines 10-11, 23-25) together with the output pin
levels and the trace of actions performed so far. -/
structure State where
  floorQueue : List Int
  queueSize : Nat
  currentFloor : Int
  inputStartTime : Nat
  inputInProgress : Bool
  pins : Nat → Level
  trace : List Event

/-- Values of the globals at program start; `pins0` is the power-on level of the pins. -/
def initial (pins0 : Nat → Level) : State :=
  { floorQueue := [0, 0, 0, 0, 0]
    queueSize := 0
    currentFloor := 1
    inputStartTime := 0
    inputInProgress := false
    pins := pins0
    trace := [] }

/-- Ghost: append an event to the trace. -/
def emit (e : Event) (s : State) : State :=
  { s with trace := s.trace ++ [e] }

/-- The call `digitalWrite(pin, val)`: sets the level of `pin`. -/
def digitalWrite (pin : Nat) (val : Level) (s : State) : State :=
  { s with pins := Function.update s.pins pin val
           trace := s.trace ++ [Event.digitalWrite pin val] }

/-- The call `delay(ms)`: a blocking wait; it changes no variable and no pin. -/
def delay (ms : Nat) (s : State) : State :=
  emit (Event.delay ms) s

/-- Function `clearDisplay()` (lines 150-155). -/
def clearDisplay (s : State) : State :=
  let s1 := (List.range 7).foldl
    (fun st i => digitalWrite (segmentPins.getD i 0) Level.HIGH st) s
  digitalWrite dpPin Level.HIGH s1

/-- Function `displayFloor(floor)` (lines 141-147).  The row `floorNumbers[floor - 1]` exists
only for `1 ≤ floor ≤ 5`; any other index is out of bounds. -/
def displayFloor (floor : Int) (s : State) : Option State :=
  let s0 := clearDisplay (emit (Event.callDisplayFloor floor) s)
  if floor - 1 < 0 then none
  else
    match floorNumbers[(floor - 1).toNat]? with
    | none => none
    | some row =>
      let s1 := (List.range 7).foldl
        (fun st i => digitalWrite (segmentPins.getD i 0) (row.getD i Level.HIGH) st) s0
      some (digitalWrite dpPin Level.LOW s1)

/-- Function `lightFloorLed(floor)` (lines 158-166). -/
def lightFloorLed (floor : Int) (s : State) : State :=
  (List.range 5).foldl
    (fun st (i : Nat) =>
      if ((i : Int) + 1 = floor) then digitalWrite (ledPins.getD i 0) Level.HIGH st
      else digitalWrite (ledPins.getD i 0) Level.LOW st)
    (emit (Event.callLightFloorLed floor) s)

/-- The upward stepping loop of `moveToFloor` (lines 118-122), from loop variable `i`. -/
def moveUpLoop (targetFloor : Int) : Nat → Int → State → Option State
  | fuel, i, s =>
    if i ≤ targetFloor then
      match fuel with
      | 0 => none
      | fuel + 1 =>
        match displayFloor i (delay 1000 s) with
        | none => none
        | some s1 => moveUpLoop targetFloor fuel (i + 1) (lightFloorLed i s1)
    else some s

/-- The downward stepping loop of `moveToFloor` (lines 126-130), from loop variable `i`. -/
def moveDownLoop (targetFloor : Int) : Nat → Int → State → Option State
  | fuel, i, s =>
    if i ≥ targetFloor then
      match fuel with
      | 0 => none
      | fuel + 1 =>
        match displayFloor i (delay 1000 s) with
        | none => none
        | some s1 => moveDownLoop targetFloor fuel (i - 1) (lightFloorLed i s1)
    else some s

/-- The tail of `moveToFloor` (lines 133-137). -/
def arrive (targetFloor : Int) (s : State) : State :=
  let s1 := { s with currentFloor := targetFloor }
  delay 3000 (digitalWrite downLedPin Level.LOW (digitalWrite upLedPin Level.LOW s1))

/-- Function `moveToFloor(targetFloor)` (lines 112-138). -/
def moveToFloor (targetFloor : Int) (s : State) : Option State :=
  let s0 := emit (Event.callMoveToFloor targetFloor) s
  if targetFloor = s0.currentFloor then some s0
  else if targetFloor > s0.currentFloor then
    let s1 := digitalWrite downLedPin Level.LOW (digitalWrite upLedPin Level.HIGH s0)
    match moveUpLoop targetFloor (targetFloor - s0.currentFloor).toNat
        (s0.currentFloor + 1) s1 with
    | none => none
    | some s2 => some (arrive targetFloor s2)
  else
    let s1 := digitalWrite upLedPin Level.LOW (digitalWrite downLedPin Level.HIGH s0)
    match moveDownLoop targetFloor (s0.currentFloor - targetFloor).toNat
        (s0.currentFloor - 1) s1 with
    | none => none
    | some s2 => some (arrive targetFloor s2)

/-- The scan loop of `isInQueue` (lines 95-99), from index `i`. -/
def isInQueueLoop (floor : Int) (s : State) : Nat → Nat → Option Bool
  | fuel, i =>
    if i < s.queueSize then
      match fuel with
      | 0 => none
      | fuel + 1 =>
        match s.floorQueue[i]? with
        | none => none
        | some v => if v = floor then some true else isInQueueLoop floor s fuel (i + 1)
    else some false

/-- Function `isInQueue(floor)` (lines 94-101). -/
def isInQueue (floor : Int) (s : State) : Option Bool :=
  isInQueueLoop floor s s.queueSize 0

/-- The assignment `floorQueue[idx] = v`; `none` when `idx` is not a cell of the array. -/
def storeQueue (idx : Nat) (v : Int) (s : State) : Option State :=
  if idx < s.floorQueue.length then some { s with floorQueue := s.floorQueue.set idx v }
  else none

/-- Body of the `for` loop of `checkButtons` (lines 84-89) for button index `i`;
`read pin` is the value returned by `digitalRead(pin)`. -/
def checkButton (read : Nat → Level) (i : Nat) (s : State) : Option State :=
  if read (buttonPins.getD i 0) = Level.LOW then
    match isInQueue ((i : Int) + 1) s with
    | none => none
    | some inQueue =>
      if !inQueue && decide (s.queueSize < 5) then
        match storeQueue s.queueSize ((i : Int) + 1) s with
        | none => none
        | some s1 => some { s1 with queueSize := s1.queueSize + 1 }
      else some s
  else some s

/-- Run `checkButton` for the indices in `is`, in order. -/
def checkButtonsFrom (read : Nat → Level) : List Nat → State → Option State
  | [], s => some s
  | i :: is, s =>
    match checkButton read i s with
    | none => none
    | some s1 => checkButtonsFrom read is s1

/-- Function `checkButtons()` (lines 82-91): `for (int i = 0; i < 5; i++)`. -/
def checkButtons (read : Nat → Level) (s : State) : Option State :=
  checkButtonsFrom read (List.range 5) s

/-- The loop of `processQueue` (lines 105-107), from index `i`. -/
def processQueueLoop : Nat → Nat → State → Option State
  | fuel, i, s =>
    if i < s.queueSize then
      match fuel with
      | 0 => none
      | fuel + 1 =>
        match s.floorQueue[i]? with
        | none => none
        | some target =>
          match moveToFloor target s with
          | none => none
          | some s1 => processQueueLoop fuel (i + 1) s1
    else some s

/-- Function `processQueue()` (lines 104-109). -/
def processQueue (s : State) : Option State :=
  match processQueueLoop s.queueSize 0 (emit Event.callProcessQueue s) with
  | none => none
  | some s1 => some { s1 with queueSize := 0 }

/-- Number of values of an `unsigned long` (32 bits on the AVR target). -/
def ulongMod : Nat := 2 ^ 32

/-- Subtraction of `unsigned long` values, `a - b` modulo `2^32`. -/
def ulongSub (a b : Nat) : Nat :=
  (a % ulongMod + ulongMod - b % ulongMod) % ulongMod

/-- Function `startInputPeriod()` (lines 76-79); `now` is the value returned by `millis()`. -/
def startInputPeriod (now : Nat) (s : State) : State :=
  let s0 := emit Event.callStartInputPeriod s
  { s0 with inputStartTime := now % ulongMod, inputInProgress := true }

/-- The expiry test `millis() - inputStartTime >= 6000` (line 66). -/
def windowExpired (now : Nat) (s : State) : Bool :=
  decide (ulongSub now s.inputStartTime ≥ 6000)

/-- One iteration of `loop()` (lines 55-73).  `nowStart` is what `millis()` returns
inside `startInputPeriod` (if it is called), `nowCheck` what it returns at the expiry
test, and `read` gives the button levels seen by `checkButtons`. -/
def loop (nowStart nowCheck : Nat) (read : Nat → Level) (s : State) : Option State :=
  let s1 := if !s.inputInProgress then startInputPeriod nowStart s else s
  if s1.inputInProgress then
    match checkButtons read s1 with
    | none => none
    | some s2 =>
      if windowExpired nowCheck s2 then
        let s3 := { s2 with inputInProgress := false }
        if s3.queueSize > 0 then processQueue s3 else some s3
      else some s2
  else some s1

/-- Function `setup()` (lines 27-53); `pinMode` configures pin direction and writes no level. -/
def setup (s : State) : Option State :=
  match displayFloor s.currentFloor (clearDisplay s) with
  | none => none
  | some s1 => some (lightFloorLed s.currentFloor s1)

/-! ## Derived notions used in the statements -/

/-- The pending requests: the cells `floorQueue[0 .. queueSize)`. -/
def State.queue (s : State) : List Int :=
  s.floorQueue.take s.queueSize

/-- Pin levels after performing the events `evs` starting from levels `pins`. -/
def pinsAfter (pins : Nat → Level) : List Event → (Nat → Level)
  | [] => pins
  | Event.digitalWrite p v :: evs => pinsAfter (Function.update pins p v) evs
  | _ :: evs => pinsAfter pins evs

/-- Total time spent in `delay`, in milliseconds. -/
def totalDelay : List Event → Nat
  | [] => 0
  | Event.delay ms :: evs => ms + totalDelay evs
  | _ :: evs => totalDelay evs

/-- True for the hardware effects (`digitalWrite`, `delay`), false for the ghost markers. -/
def Event.isEffect : Event → Bool
  | Event.digitalWrite _ _ => true
  | Event.delay _ => true
  | _ => false

/-- True for everything except pin writes: the calls and the delays. -/
def Event.isStep : Event → Bool
  | Event.digitalWrite _ _ => false
  | _ => true

/-- The targets of the `moveToFloor` calls in a trace, in order. -/
def moveTargets : List Event → List Int
  | [] => []
  | Event.callMoveToFloor t :: evs => t :: moveTargets evs
  | _ :: evs => moveTargets evs

/-- The button reading in which exactly the button with index `i` reads `LOW`. -/
def onlyButton (i : Nat) (pin : Nat) : Level :=
  if pin = buttonPins.getD i 0 then Level.LOW else Level.HIGH

/-! ## Specification-level definitions

Event lists, invariants and run functions used to state the properties. -/

/-- The state after performing the output events `evs`: only pins and trace change. -/
def State.out (s : State) (evs : List Event) : State :=
  { s with pins := pinsAfter s.pins evs, trace := s.trace ++ evs }

/-- Events of `clearDisplay()`. -/
def clearDisplayEvents : List Event :=
  segmentPins.map (fun p => Event.digitalWrite p Level.HIGH) ++
    [Event.digitalWrite dpPin Level.HIGH]

/-- Events of `displayFloor(floor)` for a floor with a row in `floorNumbers`. -/
def displayFloorEvents (floor : Int) : List Event :=
  Event.callDisplayFloor floor :: clearDisplayEvents ++
    List.zipWith Event.digitalWrite segmentPins (floorNumbers.getD (floor - 1).toNat []) ++
    [Event.digitalWrite dpPin Level.LOW]

/-- Events of `lightFloorLed(floor)`. -/
def lightFloorLedEvents (floor : Int) : List Event :=
  Event.callLightFloorLed floor ::
    (List.range 5).map (fun (i : Nat) =>
      Event.digitalWrite (ledPins.getD i 0)
        (if (i : Int) + 1 = floor then Level.HIGH else Level.LOW))

/-- Events of one iteration of a stepping loop of `moveToFloor` at loop variable `i`. -/
def stepEvents (i : Int) : List Event :=
  Event.delay 1000 :: (displayFloorEvents i ++ lightFloorLedEvents i)

/-- The `n` consecutive floors `i, i+1, ...` (values of an incrementing loop variable). -/
def countUp (i : Int) : Nat → List Int
  | 0 => []
  | n + 1 => i :: countUp (i + 1) n

/-- The `n` consecutive floors `i, i-1, ...` (values of a decrementing loop variable). -/
def countDown (i : Int) : Nat → List Int
  | 0 => []
  | n + 1 => i :: countDown (i - 1) n

/-- Floors passed by a move from `A` to `B`, in order: `A+1, ..., B` when `B > A`,
`A-1, ..., B` when `B < A`; `A` itself is not in the list, `B` is its last element. -/
def floorsBetween (A B : Int) : List Int :=
  if A < B then countUp (A + 1) (B - A).toNat else countDown (A - 1) (A - B).toNat

/-- Events that open an upward move. -/
def upHeader (B : Int) : List Event :=
  [Event.callMoveToFloor B, Event.digitalWrite upLedPin Level.HIGH,
    Event.digitalWrite downLedPin Level.LOW]

/-- Events that open a downward move. -/
def downHeader (B : Int) : List Event :=
  [Event.callMoveToFloor B, Event.digitalWrite downLedPin Level.HIGH,
    Event.digitalWrite upLedPin Level.LOW]

/-- Events of the tail of `moveToFloor`: both direction LEDs off, then the dwell. -/
def arriveEvents : List Event :=
  [Event.digitalWrite upLedPin Level.LOW, Event.digitalWrite downLedPin Level.LOW,
    Event.delay 3000]

/-- All events of `moveToFloor(B)` called with `currentFloor = A`. -/
def moveEvents (A B : Int) : List Event :=
  if B = A then [Event.callMoveToFloor B]
  else (if A < B then upHeader B else downHeader B) ++
    (floorsBetween A B).flatMap stepEvents ++ arriveEvents

/-- The state after `floorQueue[queueSize] = v; queueSize++`. -/
def enqueue (v : Int) (s : State) : State :=
  { s with floorQueue := s.floorQueue.set s.queueSize v, queueSize := s.queueSize + 1 }

/-- Successive calls of `checkButtons`, one per button reading in `reads`. -/
def checkButtonsRepeated : List (Nat → Level) → State → Option State
  | [], s => some s
  | read :: reads, s =>
    match checkButtons read s with
    | none => none
    | some s1 => checkButtonsRepeated reads s1

/-- Queue invariant: five cells, at most five pending entries, all of them distinct
floors in `1..5`. -/
def QueueInv (s : State) : Prop :=
  s.floorQueue.length = 5 ∧ s.queueSize ≤ 5 ∧ s.queue.Nodup ∧ ∀ f ∈ s.queue, 1 ≤ f ∧ f ≤ 5

/-- The pins written by the `digitalWrite` events of a trace, in order. -/
def writtenPins : List Event → List Nat
  | [] => []
  | Event.digitalWrite p _ :: evs => p :: writtenPins evs
  | _ :: evs => writtenPins evs

/-- Events of successive moves to the targets `ts`, starting at floor `cur`. -/
def tripEvents (cur : Int) : List Int → List Event
  | [] => []
  | t :: ts => moveEvents cur t ++ tripEvents t ts

/-- The floor reached after successive moves to the targets `ts` from floor `cur`. -/
def lastFloor (cur : Int) : List Int → Int
  | [] => cur
  | t :: ts => lastFloor t ts

/-- The calls and delays of one stepping-loop iteration at floor `i`. -/
def stepSkeleton (i : Int) : List Event :=
  [Event.delay 1000, Event.callDisplayFloor i, Event.callLightFloorLed i]

/-- Standard seven-segment glyphs of the digits 1..5: for each of the segments
`a, b, c, d, e, f, g`, whether it is lit. -/
def digitGlyph : Int → List Bool
  | 1 => [false, true, true, false, false, false, false]
  | 2 => [true, true, false, true, true, false, true]
  | 3 => [true, true, true, true, false, false, true]
  | 4 => [false, true, true, false, false, true, true]
  | 5 => [true, false, true, true, false, true, true]
  | _ => []

/-- Active-low drive level of a segment: `LOW` lights it, `HIGH` leaves it dark. -/
def activeLow (lit : Bool) : Level :=
  if lit then Level.LOW else Level.HIGH

/-- The button reading in which no button is pressed. -/
def noButton (_ : Nat) : Level := Level.HIGH

/-- Successive iterations of `loop()`, one per input triple
`(nowStart, nowCheck, read)`. -/
def runLoops : List (Nat × Nat × (Nat → Level)) → State → Option State
  | [], s => some s
  | (nowStart, nowCheck, read) :: rest, s =>
    match loop nowStart nowCheck read s with
    | none => none
    | some s1 => runLoops rest s1

/-- The delays and display updates of a trace, each paired with the levels of the up and
down direction LEDs at the moment it happens, starting from pin levels `pins`. -/
def observe (pins : Nat → Level) : List Event → List (Event × Level × Level)
  | [] => []
  | Event.digitalWrite p v :: evs => observe (Function.update pins p v) evs
  | Event.delay ms :: evs =>
    (Event.delay ms, pins upLedPin, pins downLedPin) :: observe pins evs
  | Event.callDisplayFloor f :: evs =>
    (Event.callDisplayFloor f, pins upLedPin, pins downLedPin) :: observe pins evs
  | _ :: evs => observe pins evs

/-- Well-formed state: five queue cells, at most five pending entries, and the pending
entries and the current floor are floors in `1..5`. -/
def WellFormed (s : State) : Prop :=
  s.floorQueue.length = 5 ∧ s.queueSize ≤ 5 ∧ (∀ f ∈ s.queue, 1 ≤ f ∧ f ≤ 5) ∧
    1 ≤ s.currentFloor ∧ s.currentFloor ≤ 5

/-- The state `s'` differs from `s` at most in the queue cells and the queue size. -/
def QueueOnly (s s' : State) : Prop :=
  s' = { s with floorQueue := s'.floorQueue, queueSize := s'.queueSize }

/-- The state in which `loop()` polls the buttons: the entry state if a window is
active, otherwise the entry state after `startInputPeriod()`. -/
def pollState (nowStart : Nat) (s : State) : State :=
  if s.inputInProgress then s else startInputPeriod nowStart s

/-- Events of `setup()`. -/
def setupEvents : List Event :=
  clearDisplayEvents ++ displayFloorEvents 1 ++ lightFloorLedEvents 1

/-- What `loop()` does with the polled state `s2` once the window has expired
(lines 67-70). -/
def dispatch (s2 : State) : Option State :=
  if 0 < s2.queueSize then processQueue { s2 with inputInProgress := false }
  else some { s2 with inputInProgress := false }

/-- A concrete state for worked examples: the given queue cells, queue size, current
floor and window flag; window start 0, all pins `LOW`, empty trace. -/
def exampleState (floorQueue : List Int) (queueSize : Nat) (currentFloor : Int)
    (inputInProgress : Bool) : State :=
  { floorQueue := floorQueue
    queueSize := queueSize
    currentFloor := currentFloor
    inputStartTime := 0
    inputInProgress := inputInProgress
    pins := fun _ => Level.LOW
    trace := [] }

/-- The indices `i` of the buttons that `checkButtons` finds pressed with floor `i + 1` not
among the pending entries `q`, in scan order `0, 1, 2, 3, 4`. -/
def newPresses (read : Nat → Level) (q : List Int) (is : List Nat) : List Nat :=
  is.filter (fun i => decide (read (buttonPins.getD i 0) = Level.LOW) &&
    decide (((i : Int) + 1) ∉ q))

/-- The arguments of the `displayFloor` and `lightFloorLed` calls in a trace, in order. -/
def displayedFloors : List Event → List Int
  | [] => []
  | Event.callDisplayFloor f :: evs => f :: displayedFloors evs
  | Event.callLightFloorLed f :: evs => f :: displayedFloors evs
  | _ :: evs => displayedFloors evs

/-- The state `exampleState` with all pins `HIGH` instead of `LOW`. -/
def exampleStateHigh (floorQueue : List Int) (queueSize : Nat) (currentFloor : Int)
    (inputInProgress : Bool) : State :=
  { exampleState floorQueue queueSize currentFloor inputInProgress with
    pins := fun _ => Level.HIGH }

/-- The upward stepping loop of `moveToFloor` (lines 118-122) once more, this time
returning the state after each completed iteration instead of only the last one. -/
def moveUpLoopStates (targetFloor : Int) : Nat → Int → State → Option (List State)
  | fuel, i, s =>
    if i ≤ targetFloor then
      match fuel with
      | 0 => none
      | fuel + 1 =>
        match displayFloor i (delay 1000 s) with
        | none => none
        | some s1 =>
          match moveUpLoopStates targetFloor fuel (i + 1) (lightFloorLed i s1) with
          | none => none
          | some rest => some (lightFloorLed i s1 :: rest)
    else some []

/-- The downward stepping loop of `moveToFloor` (lines 126-130) once more, returning the
state after each completed iteration. -/
def moveDownLoopStates (targetFloor : Int) : Nat → Int → State → Option (List State)
  | fuel, i, s =>
    if i ≥ targetFloor then
      match fuel with
      | 0 => none
      | fuel + 1 =>
        match displayFloor i (delay 1000 s) with
        | none => none
        | some s1 =>
          match moveDownLoopStates targetFloor fuel (i - 1) (lightFloorLed i s1) with
          | none => none
          | some rest => some (lightFloorLed i s1 :: rest)
    else some []

/-- The successive states of a call `moveToFloor(targetFloor)` that is not a no-op: on
entry, after the direction LEDs are set (lines 116-117 or 124-125), after each iteration
of the stepping loop, after the assignment `currentFloor = targetFloor` (line 133), and on
return.  For a no-op call: the entry state only. -/
def moveToFloorStates (targetFloor : Int) (s : State) : Option (List State) :=
  let s0 := emit (Event.callMoveToFloor targetFloor) s
  if targetFloor = s0.currentFloor then some [s0]
  else if targetFloor > s0.currentFloor then
    let s1 := digitalWrite downLedPin Level.LOW (digitalWrite upLedPin Level.HIGH s0)
    match moveUpLoopStates targetFloor (targetFloor - s0.currentFloor).toNat
        (s0.currentFloor + 1) s1 with
    | none => none
    | some mids =>
      let s2 := mids.getLastD s1
      some (s0 :: s1 :: mids ++ [{ s2 with currentFloor := targetFloor }, arrive targetFloor s2])
  else
    let s1 := digitalWrite upLedPin Level.LOW (digitalWrite downLedPin Level.HIGH s0)
    match moveDownLoopStates targetFloor (s0.currentFloor - targetFloor).toNat
        (s0.currentFloor - 1) s1 with
    | none => none
    | some mids =>
      let s2 := mids.getLastD s1
      some (s0 :: s1 :: mids ++ [{ s2 with currentFloor := targetFloor }, arrive targetFloor s2])

/-- Whether every change between consecutive values of the list is by exactly `d`. -/
def unitSteps (d : Int) : List Int → Bool
  | x :: y :: rest => (y == x || y == x + d) && unitSteps d (y :: rest)
  | _ => true

/-- The arguments of the `displayFloor` calls in a trace, in order. -/
def shownFloors : List Event → List Int
  | [] => []
  | Event.callDisplayFloor f :: evs => f :: shownFloors evs
  | _ :: evs => shownFloors evs

/-- The arguments of the `lightFloorLed` calls in a trace, in order. -/
def litFloors : List Event → List Int
  | [] => []
  | Event.callLightFloorLed f :: evs => f :: litFloors evs
  | _ :: evs => litFloors evs

/-! ## Theorems -/

/-! ## Trace semantics of the output functions -/

theorem pinsAfter_append (pins : Nat → Level) (a b : List Event) :
    pinsAfter pins (a ++ b) = pinsAfter (pinsAfter pins a) b := by
  induction a generalizing pins with
  | nil => rfl
  | cons e a ih => cases e <;> simp [pinsAfter, ih]

theorem out_nil (s : State) : s.out [] = s := by
  simp [State.out, pinsAfter]

theorem out_out (s : State) (a b : List Event) : (s.out a).out b = s.out (a ++ b) := by
  simp [State.out, pinsAfter_append]

theorem digitalWrite_eq_out (p : Nat) (v : Level) (s : State) :
    digitalWrite p v s = s.out [Event.digitalWrite p v] := rfl

theorem delay_eq_out (ms : Nat) (s : State) : delay ms s = s.out [Event.delay ms] := rfl

theorem clearDisplay_eq_out (s : State) : clearDisplay s = s.out clearDisplayEvents := by
  simp [clearDisplay, digitalWrite_eq_out, out_out, clearDisplayEvents, segmentPins,
    List.range_succ]

theorem foldl_digitalWrite_eq_out (pin : Nat → Nat) (val : Nat → Level) (is : List Nat)
    (s : State) :
    is.foldl (fun st i => digitalWrite (pin i) (val i) st) s =
      s.out (is.map (fun i => Event.digitalWrite (pin i) (val i))) := by
  induction is generalizing s with
  | nil => simp [out_nil]
  | cons i is ih =>
    rw [List.foldl_cons, ih, digitalWrite_eq_out, out_out]
    rfl

theorem lightFloorLed_eq_out (floor : Int) (s : State) :
    lightFloorLed floor s = s.out (lightFloorLedEvents floor) := by
  have h : emit (Event.callLightFloorLed floor) s = s.out [Event.callLightFloorLed floor] := rfl
  have hbody : (fun st (i : Nat) =>
      if ((i : Int) + 1 = floor) then digitalWrite (ledPins.getD i 0) Level.HIGH st
      else digitalWrite (ledPins.getD i 0) Level.LOW st) =
      (fun st (i : Nat) => digitalWrite (ledPins.getD i 0)
        (if (i : Int) + 1 = floor then Level.HIGH else Level.LOW) st) := by
    funext st i
    split <;> rfl
  rw [lightFloorLed, hbody, foldl_digitalWrite_eq_out, h, out_out]
  rfl

theorem displayFloor_eq_out (floor : Int) (s : State) (h1 : 1 ≤ floor) (h5 : floor ≤ 5) :
    displayFloor floor s = some (s.out (displayFloorEvents floor)) := by
  have h : emit (Event.callDisplayFloor floor) s = s.out [Event.callDisplayFloor floor] := rfl
  have hf : floor = 1 ∨ floor = 2 ∨ floor = 3 ∨ floor = 4 ∨ floor = 5 := by omega
  rcases hf with rfl | rfl | rfl | rfl | rfl <;>
    simp [displayFloor, h, clearDisplay_eq_out, digitalWrite_eq_out, out_out,
      displayFloorEvents, floorNumbers, segmentPins, List.range_succ]

theorem displayFloor_eq_none (floor : Int) (s : State) (h : floor < 1 ∨ 5 < floor) :
    displayFloor floor s = none := by
  unfold displayFloor
  by_cases h0 : floor - 1 < 0
  · simp [h0]
  · have h5 : 5 ≤ (floor - 1).toNat := by omega
    have hrow : floorNumbers[(floor - 1).toNat]? = none := by
      apply List.getElem?_eq_none
      simpa [floorNumbers] using h5
    simp only [h0, if_false, hrow]

theorem moveUpLoop_eq (target : Int) (h5 : target ≤ 5) :
    ∀ (n fuel : Nat) (i : Int) (s : State), 1 ≤ i → i + n = target + 1 → n ≤ fuel →
      moveUpLoop target fuel i s = some (s.out ((countUp i n).flatMap stepEvents)) := by
  intro n
  induction n with
  | zero =>
    intro fuel i s _ hi _
    have hgt : ¬ i ≤ target := by omega
    unfold moveUpLoop
    simp [hgt, countUp, out_nil]
  | succ n ih =>
    intro fuel i s h1 hi hfuel
    have hle : i ≤ target := by omega
    obtain ⟨f, rfl⟩ : ∃ f, fuel = f + 1 := ⟨fuel - 1, by omega⟩
    unfold moveUpLoop
    simp only [hle, if_true]
    rw [displayFloor_eq_out i _ h1 (by omega), delay_eq_out]
    simp only
    rw [lightFloorLed_eq_out, ih f (i + 1) _ (by omega) (by omega) (by omega)]
    simp [out_out, countUp, stepEvents]

theorem moveDownLoop_eq (target : Int) (h1 : 1 ≤ target) :
    ∀ (n fuel : Nat) (i : Int) (s : State), i ≤ 5 → i + 1 = target + n → n ≤ fuel →
      moveDownLoop target fuel i s = some (s.out ((countDown i n).flatMap stepEvents)) := by
  intro n
  induction n with
  | zero =>
    intro fuel i s _ hi _
    have hgt : ¬ i ≥ target := by omega
    unfold moveDownLoop
    simp [hgt, countDown, out_nil]
  | succ n ih =>
    intro fuel i s h5 hi hfuel
    have hle : i ≥ target := by omega
    obtain ⟨f, rfl⟩ : ∃ f, fuel = f + 1 := ⟨fuel - 1, by omega⟩
    unfold moveDownLoop
    simp only [hle, if_true]
    rw [displayFloor_eq_out i _ (by omega) h5, delay_eq_out]
    simp only
    rw [lightFloorLed_eq_out, ih f (i - 1) _ (by omega) (by omega) (by omega)]
    simp [out_out, countDown, stepEvents]

theorem arrive_eq_out (target : Int) (s : State) :
    arrive target s = { s.out arriveEvents with currentFloor := target } := by
  unfold arrive
  simp only [delay_eq_out, digitalWrite_eq_out, out_out]
  rfl

/-- Trace semantics of `moveToFloor` on the floors `1..5`. -/
theorem moveToFloor_eq (B : Int) (s : State) (hA : 1 ≤ s.currentFloor ∧ s.currentFloor ≤ 5)
    (hB : 1 ≤ B ∧ B ≤ 5) :
    moveToFloor B s =
      some { s.out (moveEvents s.currentFloor B) with currentFloor := B } := by
  have hemit : emit (Event.callMoveToFloor B) s = s.out [Event.callMoveToFloor B] := rfl
  unfold moveToFloor
  simp only [hemit]
  have hcur : (s.out [Event.callMoveToFloor B]).currentFloor = s.currentFloor := rfl
  rw [hcur]
  by_cases heq : B = s.currentFloor
  · subst heq
    simp [moveEvents]
    rfl
  · by_cases hup : B > s.currentFloor
    · simp only [heq, if_false, hup, if_true, digitalWrite_eq_out, out_out]
      rw [moveUpLoop_eq B hB.2 (B - s.currentFloor).toNat _ _ _ (by omega) (by omega)
        (le_refl _)]
      have hlt : s.currentFloor < B := hup
      simp only [arrive_eq_out, out_out, moveEvents, heq, if_false, hlt, if_true,
        floorsBetween, upHeader, List.append_assoc, List.cons_append, List.nil_append]
    · simp only [heq, if_false, hup, digitalWrite_eq_out, out_out]
      rw [moveDownLoop_eq B hB.1 (s.currentFloor - B).toNat _ _ _ (by omega) (by omega)
        (le_refl _)]
      have hlt : ¬ s.currentFloor < B := hup
      simp only [arrive_eq_out, out_out, moveEvents, heq, if_false, hlt,
        floorsBetween, downHeader, List.append_assoc, List.cons_append, List.nil_append]

theorem queue_length (s : State) (h : s.queueSize ≤ s.floorQueue.length) :
    s.queue.length = s.queueSize := by
  simp [State.queue, h]

theorem isInQueueLoop_eq (floor : Int) (s : State) (hlen : s.queueSize ≤ s.floorQueue.length) :
    ∀ (n fuel i : Nat), i + n = s.queueSize → n ≤ fuel →
      isInQueueLoop floor s fuel i = some (decide (floor ∈ s.queue.drop i)) := by
  intro n
  induction n with
  | zero =>
    intro fuel i hi _
    have hnot : ¬ i < s.queueSize := by omega
    have hdrop : s.queue.drop i = [] := by
      apply List.drop_eq_nil_of_le
      rw [queue_length s hlen]; omega
    unfold isInQueueLoop
    simp [hnot, hdrop]
  | succ n ih =>
    intro fuel i hi hfuel
    have hlt : i < s.queueSize := by omega
    obtain ⟨f, rfl⟩ : ∃ f, fuel = f + 1 := ⟨fuel - 1, by omega⟩
    have hil : i < s.floorQueue.length := by omega
    have hiq : i < s.queue.length := by rw [queue_length s hlen]; exact hlt
    have hget : s.queue[i] = s.floorQueue[i] := by
      simp [State.queue]
    have hdrop : s.queue.drop i = s.floorQueue[i] :: s.queue.drop (i + 1) := by
      rw [← hget]; exact List.drop_eq_getElem_cons hiq
    unfold isInQueueLoop
    simp only [hlt, if_true, List.getElem?_eq_getElem hil]
    by_cases hv : s.floorQueue[i] = floor
    · simp [hv, hdrop]
    · rw [if_neg hv, ih f (i + 1) (by omega) (by omega), hdrop]
      have hv' : ¬ floor = s.floorQueue[i] := fun h => hv h.symm
      simp [hv']

theorem isInQueue_eq (floor : Int) (s : State) (hlen : s.queueSize ≤ s.floorQueue.length) :
    isInQueue floor s = some (decide (floor ∈ s.queue)) := by
  unfold isInQueue
  rw [isInQueueLoop_eq floor s hlen s.queueSize s.queueSize 0 (by omega) (le_refl _)]
  simp

theorem take_succ_set (v : Int) :
    ∀ (l : List Int) (n : Nat), n < l.length → (l.set n v).take (n + 1) = l.take n ++ [v]
  | [], _, h => by simp at h
  | _ :: _, 0, _ => by simp
  | _ :: l, n + 1, h => by
    have h' : n < l.length := by simpa using h
    simp [take_succ_set v l n h']

theorem queue_enqueue (v : Int) (s : State) (h : s.queueSize < s.floorQueue.length) :
    (enqueue v s).queue = s.queue ++ [v] := by
  simp only [State.queue, enqueue]
  exact take_succ_set v _ _ h

/-- What one iteration of the `checkButtons` loop does, on a well-formed queue. -/
theorem checkButton_eq (read : Nat → Level) (i : Nat) (s : State)
    (hlen : s.floorQueue.length = 5) (hq : s.queueSize ≤ 5) :
    checkButton read i s =
      some (if read (buttonPins.getD i 0) = Level.LOW ∧ ((i : Int) + 1) ∉ s.queue ∧
          s.queueSize < 5 then enqueue ((i : Int) + 1) s else s) := by
  unfold checkButton
  generalize read (buttonPins.getD i 0) = lv
  by_cases hp : lv = Level.LOW
  · rw [if_pos hp, isInQueue_eq _ s (by omega)]
    by_cases hm : ((i : Int) + 1) ∈ s.queue
    · simp [hm]
    · by_cases hs : s.queueSize < 5
      · have hs' : s.queueSize < s.floorQueue.length := by omega
        simp [hm, hs, hp, storeQueue, hs', enqueue]
      · simp [hm, hs]
  · simp [hp]

theorem mem_of_full (l : List Int) (hnd : l.Nodup) (hr : ∀ f ∈ l, 1 ≤ f ∧ f ≤ 5)
    (hlen : l.length = 5) (f : Int) (hf : 1 ≤ f ∧ f ≤ 5) : f ∈ l := by
  have hsub : l ⊆ [1, 2, 3, 4, 5] := by
    intro x hx
    have := hr x hx
    have hx' : x = 1 ∨ x = 2 ∨ x = 3 ∨ x = 4 ∨ x = 5 := by omega
    simpa using hx'
  have hperm : l.Perm [1, 2, 3, 4, 5] :=
    (List.subperm_of_subset hnd hsub).perm_of_length_le (by simp [hlen])
  have hf' : f = 1 ∨ f = 2 ∨ f = 3 ∨ f = 4 ∨ f = 5 := by omega
  exact hperm.mem_iff.mpr (by simpa using hf')

theorem checkButton_inv (read : Nat → Level) (i : Nat) (hi : i < 5) (s : State)
    (h : QueueInv s) :
    ∃ s', checkButton read i s = some s' ∧ QueueInv s' ∧ s.queue <+: s'.queue ∧
      (read (buttonPins.getD i 0) = Level.LOW → ((i : Int) + 1) ∈ s'.queue) := by
  obtain ⟨hlen, hq, hnd, hr⟩ := h
  rw [checkButton_eq read i s hlen hq]
  by_cases hc : read (buttonPins.getD i 0) = Level.LOW ∧ ((i : Int) + 1) ∉ s.queue ∧
      s.queueSize < 5
  · rw [if_pos hc]
    obtain ⟨_, hm, hs⟩ := hc
    have hqe := queue_enqueue ((i : Int) + 1) s (by omega)
    refine ⟨_, rfl, ⟨?_, ?_, ?_, ?_⟩, ?_, ?_⟩
    · simp [enqueue, hlen]
    · simp only [enqueue]; omega
    · rw [hqe]
      exact List.Nodup.append hnd (List.nodup_singleton _) (by simpa using hm)
    · intro f hf
      rw [hqe] at hf
      rcases List.mem_append.mp hf with hf | hf
      · exact hr f hf
      · have : f = (i : Int) + 1 := by simpa using hf
        omega
    · rw [hqe]; exact List.prefix_append _ _
    · intro _; rw [hqe]; simp
  · rw [if_neg hc]
    refine ⟨_, rfl, ⟨hlen, hq, hnd, hr⟩, List.prefix_refl _, ?_⟩
    intro hp
    by_contra hm
    have hfull : s.queueSize = 5 := by
      by_contra hne
      exact hc ⟨hp, hm, by omega⟩
    have hl : s.queue.length = 5 := by rw [queue_length s (by omega)]; exact hfull
    exact hm (mem_of_full s.queue hnd hr hl _ (by omega))

theorem checkButtonsFrom_inv (read : Nat → Level) (is : List Nat) (his : ∀ i ∈ is, i < 5) :
    ∀ (s : State), QueueInv s →
      ∃ s', checkButtonsFrom read is s = some s' ∧ QueueInv s' ∧ s.queue <+: s'.queue ∧
        ∀ i ∈ is, read (buttonPins.getD i 0) = Level.LOW → ((i : Int) + 1) ∈ s'.queue := by
  induction is with
  | nil =>
    intro s h
    exact ⟨s, rfl, h, List.prefix_refl _, by simp⟩
  | cons i is ih =>
    intro s h
    obtain ⟨s1, h1, hinv1, hpre1, hmem1⟩ :=
      checkButton_inv read i (his i (List.mem_cons_self _ _)) s h
    obtain ⟨s2, h2, hinv2, hpre2, hmem2⟩ :=
      ih (fun j hj => his j (List.mem_cons_of_mem _ hj)) s1 hinv1
    refine ⟨s2, ?_, hinv2, hpre1.trans hpre2, ?_⟩
    · simp [checkButtonsFrom, h1, h2]
    · intro j hj hp
      rcases List.mem_cons.mp hj with rfl | hj
      · exact hpre2.subset (hmem1 hp)
      · exact hmem2 j hj hp

theorem checkButtons_inv (read : Nat → Level) (s : State) (h : QueueInv s) :
    ∃ s', checkButtons read s = some s' ∧ QueueInv s' ∧ s.queue <+: s'.queue ∧
      ∀ i, i < 5 → read (buttonPins.getD i 0) = Level.LOW → ((i : Int) + 1) ∈ s'.queue := by
  obtain ⟨s', h1, h2, h3, h4⟩ :=
    checkButtonsFrom_inv read (List.range 5) (fun i hi => List.mem_range.mp hi) s h
  exact ⟨s', h1, h2, h3, fun i hi => h4 i (List.mem_range.mpr hi)⟩

theorem checkButtonsRepeated_inv (reads : List (Nat → Level)) :
    ∀ (s : State), QueueInv s →
      ∃ s', checkButtonsRepeated reads s = some s' ∧ QueueInv s' ∧ s.queue <+: s'.queue ∧
        ∀ i, i < 5 → (∃ read ∈ reads, read (buttonPins.getD i 0) = Level.LOW) →
          ((i : Int) + 1) ∈ s'.queue := by
  induction reads with
  | nil =>
    intro s h
    exact ⟨s, rfl, h, List.prefix_refl _, by simp⟩
  | cons read reads ih =>
    intro s h
    obtain ⟨s1, h1, hinv1, hpre1, hmem1⟩ := checkButtons_inv read s h
    obtain ⟨s2, h2, hinv2, hpre2, hmem2⟩ := ih s1 hinv1
    refine ⟨s2, ?_, hinv2, hpre1.trans hpre2, ?_⟩
    · simp [checkButtonsRepeated, h1, h2]
    · intro i hi hex
      obtain ⟨r, hr, hp⟩ := hex
      rcases List.mem_cons.mp hr with rfl | hr
      · exact hpre2.subset (hmem1 i hi hp)
      · exact hmem2 i hi ⟨r, hr, hp⟩

theorem queueInv_of_empty (s : State) (hlen : s.floorQueue.length = 5)
    (h0 : s.queueSize = 0) : QueueInv s := by
  refine ⟨hlen, by omega, ?_, ?_⟩ <;> simp [State.queue, h0]

/-- C1 (dedup): starting from an empty queue, after any sequence of `checkButtons` calls
with arbitrary button readings the pending entries `floorQueue[0 .. queueSize)` are
pairwise distinct, and every floor whose button read `LOW` in at least one of the calls
(so also in several of them) occurs in the queue exactly once. -/
theorem C1_dedup (reads : List (Nat → Level)) (s : State)
    (hlen : s.floorQueue.length = 5) (h0 : s.queueSize = 0) :
    ∃ s', checkButtonsRepeated reads s = some s' ∧ s'.queue.Nodup ∧
      ∀ i, i < 5 → (∃ read ∈ reads, read (buttonPins.getD i 0) = Level.LOW) →
        s'.queue.count ((i : Int) + 1) = 1 := by
  obtain ⟨s', h1, hinv, _, hmem⟩ :=
    checkButtonsRepeated_inv reads s (queueInv_of_empty s hlen h0)
  exact ⟨s', h1, hinv.2.2.1, fun i hi hex =>
    List.count_eq_one_of_mem hinv.2.2.1 (hmem i hi hex)⟩

/-- Witness for C1: button 3 read pressed in two polls and button 1 in one, from the
empty queue. -/
theorem C1_dedup_witness :
    (exampleState [0, 0, 0, 0, 0] 0 1 true).floorQueue.length = 5 ∧
    (exampleState [0, 0, 0, 0, 0] 0 1 true).queueSize = 0 ∧
    ∃ s', checkButtonsRepeated [onlyButton 2, onlyButton 2, onlyButton 0]
        (exampleState [0, 0, 0, 0, 0] 0 1 true) = some s' ∧ s'.queue.Nodup ∧
      ∀ i, i < 5 →
        (∃ read ∈ [onlyButton 2, onlyButton 2, onlyButton 0],
          read (buttonPins.getD i 0) = Level.LOW) →
        s'.queue.count ((i : Int) + 1) = 1 :=
  ⟨rfl, rfl, C1_dedup [onlyButton 2, onlyButton 2, onlyButton 0]
    (exampleState [0, 0, 0, 0, 0] 0 1 true) rfl rfl⟩

theorem checkButtonsFrom_bounds (read : Nat → Level) (is : List Nat) :
    ∀ (s : State), s.floorQueue.length = 5 → s.queueSize ≤ 5 →
      ∃ s', checkButtonsFrom read is s = some s' ∧ s'.floorQueue.length = 5 ∧
        s'.queueSize ≤ 5 ∧ (s.queueSize = 5 → s' = s) := by
  induction is with
  | nil =>
    intro s hlen hq
    exact ⟨s, rfl, hlen, hq, fun _ => rfl⟩
  | cons i is ih =>
    intro s hlen hq
    have h1 := checkButton_eq read i s hlen hq
    by_cases hc : read (buttonPins.getD i 0) = Level.LOW ∧ ((i : Int) + 1) ∉ s.queue ∧
        s.queueSize < 5
    · rw [if_pos hc] at h1
      obtain ⟨s2, h2, hlen2, hq2, _⟩ :=
        ih (enqueue ((i : Int) + 1) s) (by simp [enqueue, hlen])
          (by simp only [enqueue]; omega)
      refine ⟨s2, by simp [checkButtonsFrom, h1, h2], hlen2, hq2, ?_⟩
      intro h5
      omega
    · rw [if_neg hc] at h1
      obtain ⟨s2, h2, hlen2, hq2, hsame⟩ := ih s hlen hq
      exact ⟨s2, by simp [checkButtonsFrom, h1, h2], hlen2, hq2, hsame⟩

/-- C2 (capacity bound): on a five-cell queue with `queueSize ≤ 5`, `checkButtons` is
defined for every button reading (so every store `floorQueue[queueSize] = ...` it makes
hits one of the cells `0..4`: a store at an index `≥ 5` would make `storeQueue`, and
with it `checkButtons`, return `none`), it leaves `queueSize ≤ 5`, and when `queueSize`
is already `5` it returns the state unchanged, whatever is pressed. -/
theorem C2_capacity (read : Nat → Level) (s : State)
    (hlen : s.floorQueue.length = 5) (hq : s.queueSize ≤ 5) :
    ∃ s', checkButtons read s = some s' ∧ s'.queueSize ≤ 5 ∧ s'.floorQueue.length = 5 ∧
      (s.queueSize = 5 → s'.floorQueue = s.floorQueue ∧ s'.queueSize = s.queueSize ∧
        s' = s) := by
  obtain ⟨s', h1, hlen', hq', hsame⟩ := checkButtonsFrom_bounds read (List.range 5) s hlen hq
  refine ⟨s', h1, hq', hlen', fun h5 => ?_⟩
  have := hsame h5
  subst this
  exact ⟨rfl, rfl, rfl⟩

/-- Witness for C2: a full queue and a pressed button. -/
theorem C2_capacity_witness :
    (exampleState [3, 1, 4, 2, 5] 5 1 true).floorQueue.length = 5 ∧
    (exampleState [3, 1, 4, 2, 5] 5 1 true).queueSize ≤ 5 ∧
    ∃ s', checkButtons (onlyButton 0) (exampleState [3, 1, 4, 2, 5] 5 1 true) = some s' ∧
      s'.queueSize ≤ 5 ∧ s'.floorQueue.length = 5 ∧
      ((exampleState [3, 1, 4, 2, 5] 5 1 true).queueSize = 5 →
        s'.floorQueue = (exampleState [3, 1, 4, 2, 5] 5 1 true).floorQueue ∧
        s'.queueSize = (exampleState [3, 1, 4, 2, 5] 5 1 true).queueSize ∧
        s' = exampleState [3, 1, 4, 2, 5] 5 1 true) :=
  ⟨rfl, by decide, C2_capacity (onlyButton 0) (exampleState [3, 1, 4, 2, 5] 5 1 true) rfl
    (by decide)⟩

/-! ### Generic facts about traces -/

theorem writtenPins_append (a b : List Event) :
    writtenPins (a ++ b) = writtenPins a ++ writtenPins b := by
  induction a with
  | nil => rfl
  | cons e a ih => cases e <;> simp [writtenPins, ih]

theorem moveTargets_append (a b : List Event) :
    moveTargets (a ++ b) = moveTargets a ++ moveTargets b := by
  induction a with
  | nil => rfl
  | cons e a ih => cases e <;> simp [moveTargets, ih]

theorem totalDelay_append (a b : List Event) :
    totalDelay (a ++ b) = totalDelay a + totalDelay b := by
  induction a with
  | nil => simp [totalDelay]
  | cons e a ih => cases e <;> simp [totalDelay, ih, Nat.add_assoc]

theorem moveTargets_filter (evs : List Event) :
    moveTargets (evs.filter Event.isStep) = moveTargets evs := by
  induction evs with
  | nil => rfl
  | cons e evs ih => cases e <;> simp [List.filter, Event.isStep, moveTargets, ih]

theorem totalDelay_filter (evs : List Event) :
    totalDelay (evs.filter Event.isStep) = totalDelay evs := by
  induction evs with
  | nil => rfl
  | cons e evs ih => cases e <;> simp [List.filter, Event.isStep, totalDelay, ih]

theorem pinsAfter_of_not_written (p : Nat) (evs : List Event) :
    ∀ (pins : Nat → Level), p ∉ writtenPins evs → pinsAfter pins evs p = pins p := by
  induction evs with
  | nil => intro pins _; rfl
  | cons e evs ih =>
    intro pins hp
    cases e with
    | digitalWrite q v =>
      simp only [writtenPins, List.mem_cons, not_or] at hp
      simp only [pinsAfter]
      rw [ih _ hp.2, Function.update_noteq hp.1]
    | delay ms => exact ih pins hp
    | callMoveToFloor t => exact ih pins hp
    | callDisplayFloor f => exact ih pins hp
    | callLightFloorLed f => exact ih pins hp
    | callProcessQueue => exact ih pins hp
    | callStartInputPeriod => exact ih pins hp

theorem writtenPins_take_subset (evs : List Event) (k : Nat) :
    writtenPins (evs.take k) ⊆ writtenPins evs := by
  conv => rhs; rw [← List.take_append_drop k evs]
  rw [writtenPins_append]
  exact List.subset_append_left _ _

/-! ### The events of the output functions -/

theorem filter_isStep_zipWith (ps : List Nat) :
    ∀ (vs : List Level), (List.zipWith Event.digitalWrite ps vs).filter Event.isStep = [] := by
  induction ps with
  | nil => intro vs; simp
  | cons p ps ih =>
    intro vs
    cases vs with
    | nil => simp
    | cons v vs => simp [List.filter, Event.isStep, ih]

theorem writtenPins_zipWith (ps : List Nat) :
    ∀ (vs : List Level), writtenPins (List.zipWith Event.digitalWrite ps vs) ⊆ ps := by
  induction ps with
  | nil => intro vs; simp [writtenPins]
  | cons p ps ih =>
    intro vs
    cases vs with
    | nil => simp [writtenPins]
    | cons v vs =>
      simp only [List.zipWith_cons_cons, writtenPins]
      exact List.cons_subset_cons p (ih vs)

theorem filter_isStep_stepEvents (i : Int) :
    (stepEvents i).filter Event.isStep = stepSkeleton i := by
  simp only [stepEvents, displayFloorEvents, lightFloorLedEvents, List.filter_cons,
    List.filter_append, filter_isStep_zipWith]
  simp [clearDisplayEvents, segmentPins, List.range_succ, Event.isStep, stepSkeleton]

theorem writtenPins_clearDisplayEvents :
    writtenPins clearDisplayEvents = segmentPins ++ [dpPin] := rfl

theorem writtenPins_lightFloorLedEvents (i : Int) :
    writtenPins (lightFloorLedEvents i) = ledPins := rfl

theorem writtenPins_displayFloorEvents (i : Int) :
    writtenPins (displayFloorEvents i) ⊆ segmentPins ++ [dpPin] := by
  have hz := writtenPins_zipWith segmentPins (floorNumbers.getD (i - 1).toNat [])
  have h : writtenPins (displayFloorEvents i) =
      writtenPins clearDisplayEvents ++
        writtenPins (List.zipWith Event.digitalWrite segmentPins
          (floorNumbers.getD (i - 1).toNat [])) ++ [dpPin] := by
    have h0 : writtenPins (displayFloorEvents i) =
        writtenPins (clearDisplayEvents ++
          List.zipWith Event.digitalWrite segmentPins (floorNumbers.getD (i - 1).toNat []) ++
          [Event.digitalWrite dpPin Level.LOW]) := rfl
    rw [h0, writtenPins_append, writtenPins_append]
    rfl
  rw [h, writtenPins_clearDisplayEvents]
  intro p hp
  rcases List.mem_append.mp hp with hp | hp
  · rcases List.mem_append.mp hp with hp | hp
    · exact hp
    · exact List.mem_append_left _ (hz hp)
  · exact List.mem_append_right _ hp

/-- The stepping loop writes only the segment pins, the DP pin and the floor LED pins. -/
theorem writtenPins_stepEvents (i : Int) :
    writtenPins (stepEvents i) ⊆ segmentPins ++ dpPin :: ledPins := by
  have h : writtenPins (stepEvents i) =
      writtenPins (displayFloorEvents i) ++ writtenPins (lightFloorLedEvents i) := by
    have h0 : writtenPins (stepEvents i) =
        writtenPins (displayFloorEvents i ++ lightFloorLedEvents i) := rfl
    rw [h0, writtenPins_append]
  rw [h, writtenPins_lightFloorLedEvents]
  intro p hp
  rcases List.mem_append.mp hp with hp | hp
  · rcases List.mem_append.mp (writtenPins_displayFloorEvents i hp) with hp | hp
    · exact List.mem_append_left _ hp
    · exact List.mem_append_right _ (by simp at hp; simp [hp])
  · exact List.mem_append_right _ (List.mem_cons_of_mem _ hp)

theorem writtenPins_flatMap_stepEvents (fs : List Int) :
    writtenPins (fs.flatMap stepEvents) ⊆ segmentPins ++ dpPin :: ledPins := by
  induction fs with
  | nil => simp [writtenPins]
  | cons f fs ih =>
    rw [List.flatMap_cons, writtenPins_append]
    exact List.append_subset.mpr ⟨writtenPins_stepEvents f, ih⟩

theorem filter_isStep_flatMap_stepEvents (fs : List Int) :
    (fs.flatMap stepEvents).filter Event.isStep = fs.flatMap stepSkeleton := by
  induction fs with
  | nil => rfl
  | cons f fs ih =>
    rw [List.flatMap_cons, List.flatMap_cons, List.filter_append, ih,
      filter_isStep_stepEvents]

theorem totalDelay_flatMap_stepSkeleton (fs : List Int) :
    totalDelay (fs.flatMap stepSkeleton) = 1000 * fs.length := by
  induction fs with
  | nil => rfl
  | cons f fs ih =>
    rw [List.flatMap_cons, totalDelay_append, ih]
    simp [stepSkeleton, totalDelay]
    omega

theorem moveTargets_flatMap_stepSkeleton (fs : List Int) :
    moveTargets (fs.flatMap stepSkeleton) = [] := by
  induction fs with
  | nil => rfl
  | cons f fs ih =>
    rw [List.flatMap_cons, moveTargets_append, ih]
    rfl

/-! ### Floors passed by a move -/

theorem countUp_length (n : Nat) : ∀ (i : Int), (countUp i n).length = n := by
  induction n with
  | zero => intro i; rfl
  | succ n ih => intro i; simp [countUp, ih]

theorem countDown_length (n : Nat) : ∀ (i : Int), (countDown i n).length = n := by
  induction n with
  | zero => intro i; rfl
  | succ n ih => intro i; simp [countDown, ih]

theorem countUp_succ (n : Nat) :
    ∀ (i : Int), countUp i (n + 1) = countUp i n ++ [i + n] := by
  induction n with
  | zero => intro i; simp [countUp]
  | succ n ih =>
    intro i
    have h := ih (i + 1)
    simp only [countUp] at h ⊢
    rw [h]
    simp
    omega

theorem countDown_succ (n : Nat) :
    ∀ (i : Int), countDown i (n + 1) = countDown i n ++ [i - n] := by
  induction n with
  | zero => intro i; simp [countDown]
  | succ n ih =>
    intro i
    have h := ih (i - 1)
    simp only [countDown] at h ⊢
    rw [h]
    simp
    omega

theorem floorsBetween_length (A B : Int) : (floorsBetween A B).length = (B - A).natAbs := by
  unfold floorsBetween
  split
  · rw [countUp_length]; omega
  · rw [countDown_length]; omega

/-- The last floor passed by a move from `A` to `B ≠ A` is `B`. -/
theorem floorsBetween_last (A B : Int) (h : A ≠ B) :
    ∃ fs, floorsBetween A B = fs ++ [B] := by
  unfold floorsBetween
  split
  · obtain ⟨n, hn⟩ : ∃ n, (B - A).toNat = n + 1 := ⟨(B - A).toNat - 1, by omega⟩
    rw [hn, countUp_succ]
    exact ⟨_, by congr 2; omega⟩
  · obtain ⟨n, hn⟩ : ∃ n, (A - B).toNat = n + 1 := ⟨(A - B).toNat - 1, by omega⟩
    rw [hn, countDown_succ]
    exact ⟨_, by congr 2; omega⟩

theorem out_setFloor_out (s : State) (c : Int) (a b : List Event) :
    ({ s.out a with currentFloor := c } : State).out b =
      { s.out (a ++ b) with currentFloor := c } := by
  simp [State.out, pinsAfter_append]

theorem setFloor_out_setFloor (s : State) (c d : Int) (a b : List Event) :
    ({ ({ s.out a with currentFloor := c } : State).out b with currentFloor := d } : State) =
      { s.out (a ++ b) with currentFloor := d } := by
  simp [State.out, pinsAfter_append]

theorem processQueueLoop_eq :
    ∀ (n fuel i : Nat) (s : State), s.queueSize ≤ s.floorQueue.length →
      (1 ≤ s.currentFloor ∧ s.currentFloor ≤ 5) → (∀ f ∈ s.queue, 1 ≤ f ∧ f ≤ 5) →
      i + n = s.queueSize → n ≤ fuel →
      processQueueLoop fuel i s =
        some { s.out (tripEvents s.currentFloor (s.queue.drop i)) with
          currentFloor := lastFloor s.currentFloor (s.queue.drop i) } := by
  intro n
  induction n with
  | zero =>
    intro fuel i s hlen _ _ hi _
    have hnot : ¬ i < s.queueSize := by omega
    have hdrop : s.queue.drop i = [] := by
      apply List.drop_eq_nil_of_le
      rw [queue_length s hlen]; omega
    unfold processQueueLoop
    simp [hnot, hdrop, tripEvents, lastFloor, out_nil]
  | succ n ih =>
    intro fuel i s hlen hcur hr hi hfuel
    have hlt : i < s.queueSize := by omega
    obtain ⟨f, rfl⟩ : ∃ f, fuel = f + 1 := ⟨fuel - 1, by omega⟩
    have hil : i < s.floorQueue.length := by omega
    have hiq : i < s.queue.length := by rw [queue_length s hlen]; exact hlt
    have hget : s.queue[i] = s.floorQueue[i] := by simp [State.queue]
    have hdrop : s.queue.drop i = s.floorQueue[i] :: s.queue.drop (i + 1) := by
      rw [← hget]; exact List.drop_eq_getElem_cons hiq
    have ht : 1 ≤ s.floorQueue[i] ∧ s.floorQueue[i] ≤ 5 := by
      rw [← hget]; exact hr _ (List.getElem_mem _)
    unfold processQueueLoop
    simp only [hlt, if_true, List.getElem?_eq_getElem hil]
    rw [moveToFloor_eq _ s hcur ht]
    simp only
    have key := ih f (i + 1)
      ({ s.out (moveEvents s.currentFloor s.floorQueue[i]) with
        currentFloor := s.floorQueue[i] } : State) hlen ht hr
      (by show i + 1 + n = s.queueSize; omega) (by omega)
    rw [hdrop]
    exact key.trans (congrArg some (setFloor_out_setFloor s _ _ _ _))

/-- Trace semantics of `processQueue` on a well-formed state. -/
theorem processQueue_eq (s : State) (hlen : s.queueSize ≤ s.floorQueue.length)
    (hcur : 1 ≤ s.currentFloor ∧ s.currentFloor ≤ 5) (hr : ∀ f ∈ s.queue, 1 ≤ f ∧ f ≤ 5) :
    processQueue s =
      some { s.out (Event.callProcessQueue :: tripEvents s.currentFloor s.queue) with
        currentFloor := lastFloor s.currentFloor s.queue, queueSize := 0 } := by
  have hemit : emit Event.callProcessQueue s = s.out [Event.callProcessQueue] := rfl
  have key := processQueueLoop_eq s.queueSize s.queueSize 0 (s.out [Event.callProcessQueue])
    hlen hcur hr (by simp [State.out]) (by simp [State.out])
  unfold processQueue
  rw [hemit, key]
  simp [State.queue, State.out, pinsAfter_append]
  rfl

/-! ### What the functions return whenever they return -/

theorem displayFloor_some (floor : Int) (s s1 : State) (h : displayFloor floor s = some s1) :
    (1 ≤ floor ∧ floor ≤ 5) ∧ s1 = s.out (displayFloorEvents floor) := by
  by_cases hr : 1 ≤ floor ∧ floor ≤ 5
  · rw [displayFloor_eq_out floor s hr.1 hr.2] at h
    cases h
    exact ⟨hr, rfl⟩
  · rw [displayFloor_eq_none floor s (by omega)] at h
    cases h

theorem moveUpLoop_some (target : Int) :
    ∀ (n fuel : Nat) (i : Int) (s s' : State), (target + 1 - i).toNat = n →
      moveUpLoop target fuel i s = some s' →
      s' = s.out ((countUp i n).flatMap stepEvents) := by
  intro n
  induction n with
  | zero =>
    intro fuel i s s' hn h
    have hgt : ¬ i ≤ target := by omega
    unfold moveUpLoop at h
    rw [if_neg hgt] at h
    cases h
    simp [countUp, out_nil]
  | succ n ih =>
    intro fuel i s s' hn h
    have hle : i ≤ target := by omega
    unfold moveUpLoop at h
    rw [if_pos hle] at h
    cases fuel with
    | zero => cases h
    | succ f =>
      simp only at h
      cases hd : displayFloor i (delay 1000 s) with
      | none => rw [hd] at h; cases h
      | some s1 =>
        rw [hd] at h
        simp only at h
        obtain ⟨_, hs1⟩ := displayFloor_some i _ s1 hd
        have := ih f (i + 1) _ s' (by omega) h
        rw [this, lightFloorLed_eq_out, hs1, delay_eq_out]
        simp [out_out, countUp, stepEvents]

theorem moveDownLoop_some (target : Int) :
    ∀ (n fuel : Nat) (i : Int) (s s' : State), (i + 1 - target).toNat = n →
      moveDownLoop target fuel i s = some s' →
      s' = s.out ((countDown i n).flatMap stepEvents) := by
  intro n
  induction n with
  | zero =>
    intro fuel i s s' hn h
    have hgt : ¬ i ≥ target := by omega
    unfold moveDownLoop at h
    rw [if_neg hgt] at h
    cases h
    simp [countDown, out_nil]
  | succ n ih =>
    intro fuel i s s' hn h
    have hle : i ≥ target := by omega
    unfold moveDownLoop at h
    rw [if_pos hle] at h
    cases fuel with
    | zero => cases h
    | succ f =>
      simp only at h
      cases hd : displayFloor i (delay 1000 s) with
      | none => rw [hd] at h; cases h
      | some s1 =>
        rw [hd] at h
        simp only at h
        obtain ⟨_, hs1⟩ := displayFloor_some i _ s1 hd
        have := ih f (i - 1) _ s' (by omega) h
        rw [this, lightFloorLed_eq_out, hs1, delay_eq_out]
        simp [out_out, countDown, stepEvents]

/-- Whenever `moveToFloor` returns, it has performed exactly the events `moveEvents` and
set `currentFloor` to the target. -/
theorem moveToFloor_some (B : Int) (s s' : State) (h : moveToFloor B s = some s') :
    s' = { s.out (moveEvents s.currentFloor B) with currentFloor := B } := by
  have hemit : emit (Event.callMoveToFloor B) s = s.out [Event.callMoveToFloor B] := rfl
  unfold moveToFloor at h
  simp only [hemit] at h
  have hcur : (s.out [Event.callMoveToFloor B]).currentFloor = s.currentFloor := rfl
  rw [hcur] at h
  by_cases heq : B = s.currentFloor
  · rw [if_pos heq] at h
    cases h
    subst heq
    simp [moveEvents]
    rfl
  · rw [if_neg heq] at h
    by_cases hup : B > s.currentFloor
    · rw [if_pos hup] at h
      simp only [digitalWrite_eq_out, out_out] at h
      cases hl : moveUpLoop B (B - s.currentFloor).toNat (s.currentFloor + 1)
          (s.out ([Event.callMoveToFloor B] ++ [Event.digitalWrite upLedPin Level.HIGH] ++
            [Event.digitalWrite downLedPin Level.LOW])) with
      | none => rw [hl] at h; cases h
      | some s2 =>
        rw [hl] at h
        cases h
        have hs2 := moveUpLoop_some B (B - s.currentFloor).toNat _ _ _ s2 (by omega) hl
        have hlt : s.currentFloor < B := hup
        rw [hs2]
        simp only [arrive_eq_out, out_out, moveEvents, heq, if_false, hlt, if_true,
          floorsBetween, upHeader, List.append_assoc, List.cons_append, List.nil_append]
    · rw [if_neg hup] at h
      simp only [digitalWrite_eq_out, out_out] at h
      cases hl : moveDownLoop B (s.currentFloor - B).toNat (s.currentFloor - 1)
          (s.out ([Event.callMoveToFloor B] ++ [Event.digitalWrite downLedPin Level.HIGH] ++
            [Event.digitalWrite upLedPin Level.LOW])) with
      | none => rw [hl] at h; cases h
      | some s2 =>
        rw [hl] at h
        cases h
        have hs2 := moveDownLoop_some B (s.currentFloor - B).toNat _ _ _ s2 (by omega) hl
        have hlt : ¬ s.currentFloor < B := hup
        rw [hs2]
        simp only [arrive_eq_out, out_out, moveEvents, heq, if_false, hlt,
          floorsBetween, downHeader, List.append_assoc, List.cons_append, List.nil_append]

theorem processQueueLoop_some :
    ∀ (n fuel i : Nat) (s s' : State), s.queueSize - i = n →
      processQueueLoop fuel i s = some s' →
      s' = { s.out (tripEvents s.currentFloor (s.queue.drop i)) with
        currentFloor := lastFloor s.currentFloor (s.queue.drop i) } := by
  intro n
  induction n with
  | zero =>
    intro fuel i s s' hn h
    have hnot : ¬ i < s.queueSize := by omega
    have hdrop : s.queue.drop i = [] := by
      apply List.drop_eq_nil_of_le
      simp only [State.queue, List.length_take]
      omega
    unfold processQueueLoop at h
    rw [if_neg hnot] at h
    cases h
    simp [hdrop, tripEvents, lastFloor, out_nil]
  | succ n ih =>
    intro fuel i s s' hn h
    have hlt : i < s.queueSize := by omega
    unfold processQueueLoop at h
    rw [if_pos hlt] at h
    cases fuel with
    | zero => cases h
    | succ f =>
      simp only at h
      cases hg : s.floorQueue[i]? with
      | none => rw [hg] at h; cases h
      | some t =>
        rw [hg] at h
        simp only at h
        have hil : i < s.floorQueue.length := by
          by_contra hge
          rw [List.getElem?_eq_none (by omega)] at hg
          cases hg
        have ht : s.floorQueue[i] = t := by
          rw [List.getElem?_eq_getElem hil] at hg
          exact Option.some.inj hg
        have hiq : i < s.queue.length := by
          simp only [State.queue, List.length_take]
          omega
        have hget : s.queue[i] = t := by
          rw [← ht]
          simp [State.queue]
        have hdrop : s.queue.drop i = t :: s.queue.drop (i + 1) := by
          rw [← hget]; exact List.drop_eq_getElem_cons hiq
        cases hm : moveToFloor t s with
        | none => rw [hm] at h; cases h
        | some s1 =>
          rw [hm] at h
          simp only at h
          have hs1 := moveToFloor_some t s s1 hm
          subst hs1
          have key := ih f (i + 1) _ s' (by show s.queueSize - (i + 1) = n; omega) h
          rw [hdrop]
          exact key.trans (setFloor_out_setFloor s _ _ _ _)

/-- Whenever `processQueue` returns, it has performed the moves to the pending entries in
index order and reset `queueSize`. -/
theorem processQueue_some (s s' : State) (h : processQueue s = some s') :
    s' = { s.out (Event.callProcessQueue :: tripEvents s.currentFloor s.queue) with
      currentFloor := lastFloor s.currentFloor s.queue, queueSize := 0 } := by
  have hemit : emit Event.callProcessQueue s = s.out [Event.callProcessQueue] := rfl
  unfold processQueue at h
  rw [hemit] at h
  cases hl : processQueueLoop s.queueSize 0 (s.out [Event.callProcessQueue]) with
  | none => rw [hl] at h; cases h
  | some s1 =>
    rw [hl] at h
    cases h
    have hs1 := processQueueLoop_some s.queueSize s.queueSize 0 _ s1
      (by show s.queueSize - 0 = s.queueSize; omega) hl
    rw [hs1]
    simp [State.queue, State.out, pinsAfter_append]
    rfl

theorem filter_isStep_moveEvents (A B : Int) (h : B ≠ A) :
    (moveEvents A B).filter Event.isStep =
      Event.callMoveToFloor B :: ((floorsBetween A B).flatMap stepSkeleton ++
        [Event.delay 3000]) := by
  unfold moveEvents
  rw [if_neg h, List.filter_append, List.filter_append, filter_isStep_flatMap_stepEvents]
  split <;> rfl

theorem moveTargets_moveEvents (A B : Int) : moveTargets (moveEvents A B) = [B] := by
  by_cases h : B = A
  · simp [moveEvents, h, moveTargets]
  · rw [← moveTargets_filter, filter_isStep_moveEvents A B h]
    have : Event.callMoveToFloor B :: ((floorsBetween A B).flatMap stepSkeleton ++
        [Event.delay 3000]) = [Event.callMoveToFloor B] ++
        ((floorsBetween A B).flatMap stepSkeleton ++ [Event.delay 3000]) := rfl
    rw [this, moveTargets_append, moveTargets_append, moveTargets_flatMap_stepSkeleton]
    rfl

theorem moveTargets_tripEvents (ts : List Int) :
    ∀ (cur : Int), moveTargets (tripEvents cur ts) = ts := by
  induction ts with
  | nil => intro cur; rfl
  | cons t ts ih =>
    intro cur
    rw [tripEvents, moveTargets_append, moveTargets_moveEvents, ih]
    rfl

/-- C3 (order preservation): for every state, whenever `processQueue` returns, the targets
of the `moveToFloor` calls it has made, in the order of the calls, are exactly the pending
entries `floorQueue[0], ..., floorQueue[queueSize-1]`: one call per entry, in index order,
never sorted or reordered.  It does return on every well-formed state (five cells,
`queueSize ≤ 5`, current floor and pending entries in `1..5`, in any numeric order). -/
theorem C3_order_preservation (s : State) :
    (s.floorQueue.length = 5 → s.queueSize ≤ 5 →
      (1 ≤ s.currentFloor ∧ s.currentFloor ≤ 5) → (∀ f ∈ s.queue, 1 ≤ f ∧ f ≤ 5) →
      ∃ s', processQueue s = some s') ∧
    ∀ s', processQueue s = some s' →
      ∃ evs, s'.trace = s.trace ++ evs ∧
        moveTargets evs = s.floorQueue.take s.queueSize := by
  refine ⟨fun hlen hq hcur hr => ⟨_, processQueue_eq s (by omega) hcur hr⟩, ?_⟩
  intro s' h
  rw [processQueue_some s s' h]
  refine ⟨_, rfl, ?_⟩
  have : moveTargets (Event.callProcessQueue :: tripEvents s.currentFloor s.queue) =
      moveTargets (tripEvents s.currentFloor s.queue) := rfl
  rw [this, moveTargets_tripEvents]
  rfl

/-- Worked example for C3: the queue `[3, 1, 4]` with the car at floor 1 is served in the
order 3, 1, 4. -/
theorem C3_order_preservation_witness :
    ∃ s' evs, processQueue (exampleState [3, 1, 4, 0, 0] 3 1 false) = some s' ∧
      s'.trace = (exampleState [3, 1, 4, 0, 0] 3 1 false).trace ++ evs ∧
      moveTargets evs = [3, 1, 4] := by
  obtain ⟨hdef, hres⟩ := C3_order_preservation (exampleState [3, 1, 4, 0, 0] 3 1 false)
  obtain ⟨s', hs'⟩ := hdef rfl (by decide) (by decide) (by decide)
  obtain ⟨evs, htr, hmt⟩ := hres s' hs'
  exact ⟨s', evs, hs', htr, hmt⟩

/-- C4 (no-op move): for every state, `moveToFloor(currentFloor)` returns a state that
differs from the old one only by the ghost call marker in the trace: no pin is written,
no delay is performed (0 ms), and `currentFloor`, the queue and the window variables are
unchanged. -/
theorem C4_noop_move (s : State) :
    ∃ s', moveToFloor s.currentFloor s = some s' ∧
      s' = { s with trace := s.trace ++ [Event.callMoveToFloor s.currentFloor] } ∧
      s'.pins = s.pins ∧ s'.currentFloor = s.currentFloor ∧
      s'.floorQueue = s.floorQueue ∧ s'.queueSize = s.queueSize ∧
      ∃ evs, s'.trace = s.trace ++ evs ∧ writtenPins evs = [] ∧ totalDelay evs = 0 ∧
        evs.filter Event.isEffect = [] := by
  refine ⟨_, ?_, rfl, rfl, rfl, rfl, rfl, [Event.callMoveToFloor s.currentFloor],
    rfl, rfl, rfl, rfl⟩
  simp [moveToFloor, emit]

theorem direction_pins_not_stepped (fs : List Int) (k : Nat) :
    upLedPin ∉ writtenPins ((fs.flatMap stepEvents).take k) ∧
      downLedPin ∉ writtenPins ((fs.flatMap stepEvents).take k) := by
  have hsub := (writtenPins_take_subset (fs.flatMap stepEvents) k).trans
    (writtenPins_flatMap_stepEvents fs)
  constructor
  · intro h
    exact absurd (hsub h) (by decide)
  · intro h
    exact absurd (hsub h) (by decide)

theorem pinsAfter_upHeader (pins : Nat → Level) (B : Int) :
    pinsAfter pins (upHeader B) upLedPin = Level.HIGH ∧
      pinsAfter pins (upHeader B) downLedPin = Level.LOW := by
  constructor <;> simp [upHeader, pinsAfter, Function.update, upLedPin, downLedPin, A5]

theorem pinsAfter_downHeader (pins : Nat → Level) (B : Int) :
    pinsAfter pins (downHeader B) upLedPin = Level.LOW ∧
      pinsAfter pins (downHeader B) downLedPin = Level.HIGH := by
  constructor <;> simp [downHeader, pinsAfter, Function.update, upLedPin, downLedPin, A5]

theorem pinsAfter_direction_off (pins : Nat → Level) :
    pinsAfter pins arriveEvents.dropLast upLedPin = Level.LOW ∧
      pinsAfter pins arriveEvents.dropLast downLedPin = Level.LOW ∧
      pinsAfter pins arriveEvents upLedPin = Level.LOW ∧
      pinsAfter pins arriveEvents downLedPin = Level.LOW := by
  refine ⟨?_, ?_, ?_, ?_⟩ <;>
    simp [arriveEvents, pinsAfter, Function.update, upLedPin, downLedPin, A5]

/-- C5 (directional consistency): let `B` differ from `currentFloor = A`.  Whenever
`moveToFloor(B)` returns (it does for all floors `A`, `B` of `1..5`), it has performed the
events `header ++ loopEvents ++ arriveEvents`, where `loopEvents` are the delays, display
updates and floor-LED updates of the stepping loop.  After every prefix of `loopEvents`
(hence at every delay, display update and floor-LED update of the loop) the up LED is
`HIGH` and the down LED `LOW` when `B > A`, and the down LED is `HIGH` and the up LED `LOW`
when `B < A`.  In both cases both direction LEDs are `LOW` just before the final
`delay(3000)` and in the state that `moveToFloor` returns. -/
theorem C5_directional_consistency (s : State) (B : Int) (hne : B ≠ s.currentFloor) :
    ((1 ≤ s.currentFloor ∧ s.currentFloor ≤ 5) → (1 ≤ B ∧ B ≤ 5) →
      ∃ s', moveToFloor B s = some s') ∧
    ∀ s', moveToFloor B s = some s' →
      ∃ header loopEvents,
        header = (if s.currentFloor < B then upHeader B else downHeader B) ∧
        loopEvents = (floorsBetween s.currentFloor B).flatMap stepEvents ∧
        s'.trace = s.trace ++ (header ++ loopEvents ++ arriveEvents) ∧
        s'.pins = pinsAfter s.pins (header ++ loopEvents ++ arriveEvents) ∧
        (s.currentFloor < B → ∀ k,
          pinsAfter s.pins (header ++ loopEvents.take k) upLedPin = Level.HIGH ∧
          pinsAfter s.pins (header ++ loopEvents.take k) downLedPin = Level.LOW) ∧
        (B < s.currentFloor → ∀ k,
          pinsAfter s.pins (header ++ loopEvents.take k) downLedPin = Level.HIGH ∧
          pinsAfter s.pins (header ++ loopEvents.take k) upLedPin = Level.LOW) ∧
        arriveEvents.getLast? = some (Event.delay 3000) ∧
        pinsAfter s.pins (header ++ loopEvents ++ arriveEvents.dropLast) upLedPin =
          Level.LOW ∧
        pinsAfter s.pins (header ++ loopEvents ++ arriveEvents.dropLast) downLedPin =
          Level.LOW ∧
        s'.pins upLedPin = Level.LOW ∧ s'.pins downLedPin = Level.LOW := by
  refine ⟨fun hA hB => ⟨_, moveToFloor_eq B s hA hB⟩, ?_⟩
  intro s' h
  rw [moveToFloor_some B s s' h]
  have hoff := pinsAfter_direction_off
    (pinsAfter s.pins ((if s.currentFloor < B then upHeader B else downHeader B) ++
      (floorsBetween s.currentFloor B).flatMap stepEvents))
  refine ⟨_, _, rfl, rfl, ?_, ?_, ?_, ?_, rfl, ?_, ?_, ?_, ?_⟩
  · simp [State.out, moveEvents, hne]
  · simp [State.out, moveEvents, hne]
  · intro hlt k
    have hns := direction_pins_not_stepped (floorsBetween s.currentFloor B) k
    rw [if_pos hlt, pinsAfter_append, pinsAfter_of_not_written _ _ _ hns.1,
      pinsAfter_of_not_written _ _ _ hns.2]
    exact pinsAfter_upHeader s.pins B
  · intro hlt k
    have hns := direction_pins_not_stepped (floorsBetween s.currentFloor B) k
    have hnlt : ¬ s.currentFloor < B := by omega
    rw [if_neg hnlt, pinsAfter_append, pinsAfter_of_not_written _ _ _ hns.1,
      pinsAfter_of_not_written _ _ _ hns.2]
    exact ⟨(pinsAfter_downHeader s.pins B).2, (pinsAfter_downHeader s.pins B).1⟩
  · rw [pinsAfter_append]; exact hoff.1
  · rw [pinsAfter_append]; exact hoff.2.1
  · show pinsAfter s.pins (moveEvents s.currentFloor B) upLedPin = Level.LOW
    rw [moveEvents, if_neg hne, pinsAfter_append]; exact hoff.2.2.1
  · show pinsAfter s.pins (moveEvents s.currentFloor B) downLedPin = Level.LOW
    rw [moveEvents, if_neg hne, pinsAfter_append]; exact hoff.2.2.2

/-- Worked example for C5: during a move from floor 5 down to floor 2 the down LED is
`HIGH` and the up LED `LOW` after every prefix of the loop events, and both are `LOW` on
return. -/
theorem C5_directional_consistency_witness :
    (2 : Int) ≠ (exampleState [2, 0, 0, 0, 0] 1 5 false).currentFloor ∧
    ∃ s', moveToFloor 2 (exampleState [2, 0, 0, 0, 0] 1 5 false) = some s' ∧
      (∀ k,
        pinsAfter (exampleState [2, 0, 0, 0, 0] 1 5 false).pins
          (downHeader 2 ++ ((floorsBetween 5 2).flatMap stepEvents).take k) downLedPin =
            Level.HIGH ∧
        pinsAfter (exampleState [2, 0, 0, 0, 0] 1 5 false).pins
          (downHeader 2 ++ ((floorsBetween 5 2).flatMap stepEvents).take k) upLedPin =
            Level.LOW) ∧
      s'.pins upLedPin = Level.LOW ∧ s'.pins downLedPin = Level.LOW := by
  obtain ⟨hdef, hres⟩ :=
    C5_directional_consistency (exampleState [2, 0, 0, 0, 0] 1 5 false) 2 (by decide)
  obtain ⟨s', hs'⟩ := hdef (by decide) (by decide)
  obtain ⟨header, loopEvents, hh, hl, _, _, _, hdown, _, _, _, hup0, hdown0⟩ := hres s' hs'
  subst hh hl
  exact ⟨by decide, s', hs', hdown (by decide), hup0, hdown0⟩

/-- The pins after the last stepping-loop iteration (at floor `B`) and the tail of
`moveToFloor`, whatever the levels `pins` before. -/
theorem pins_after_last_step (pins : Nat → Level) (B : Int) (hB : 1 ≤ B ∧ B ≤ 5) :
    some (segmentPins.map (pinsAfter pins (stepEvents B ++ arriveEvents))) =
        floorNumbers[(B - 1).toNat]? ∧
      segmentPins.map (pinsAfter pins (stepEvents B ++ arriveEvents)) =
        (digitGlyph B).map activeLow ∧
      ledPins.map (pinsAfter pins (stepEvents B ++ arriveEvents)) =
        (List.range 5).map (fun (i : Nat) =>
          if (i : Int) + 1 = B then Level.HIGH else Level.LOW) := by
  have hf : B = 1 ∨ B = 2 ∨ B = 3 ∨ B = 4 ∨ B = 5 := by omega
  rcases hf with rfl | rfl | rfl | rfl | rfl <;> exact ⟨rfl, rfl, rfl⟩

/-- C6 (floor/display consistency): after a move between two different floors of `1..5`,
`currentFloor = B`; the segment pins a-g hold the row `floorNumbers[B-1]`, which is the
active-low encoding of the seven-segment glyph of the digit `B`; and a floor LED
`ledPins[i]` is `HIGH` exactly when `i = B - 1`, so exactly one floor LED is lit. -/
theorem C6_floor_display_consistency (s : State) (B : Int)
    (hA : 1 ≤ s.currentFloor ∧ s.currentFloor ≤ 5) (hB : 1 ≤ B ∧ B ≤ 5)
    (hne : B ≠ s.currentFloor) :
    ∃ s', moveToFloor B s = some s' ∧ s'.currentFloor = B ∧
      some (segmentPins.map s'.pins) = floorNumbers[(B - 1).toNat]? ∧
      segmentPins.map s'.pins = (digitGlyph B).map activeLow ∧
      ledPins.map s'.pins =
        (List.range 5).map (fun (i : Nat) =>
          if (i : Int) + 1 = B then Level.HIGH else Level.LOW) ∧
      (∀ i, i < 5 → (s'.pins (ledPins.getD i 0) = Level.HIGH ↔ (i : Int) + 1 = B)) := by
  obtain ⟨fs, hfs⟩ := floorsBetween_last s.currentFloor B (fun h => hne h.symm)
  have hpins : ∃ pins, pinsAfter s.pins (moveEvents s.currentFloor B) =
      pinsAfter pins (stepEvents B ++ arriveEvents) := by
    refine ⟨pinsAfter s.pins ((if s.currentFloor < B then upHeader B else downHeader B) ++
      fs.flatMap stepEvents), ?_⟩
    rw [moveEvents, if_neg hne, hfs, ← pinsAfter_append]
    simp [List.flatMap_append]
  obtain ⟨pins, hp⟩ := hpins
  obtain ⟨h1, h2, h3⟩ := pins_after_last_step pins B hB
  have hs' : ({ s.out (moveEvents s.currentFloor B) with currentFloor := B } : State).pins =
      pinsAfter pins (stepEvents B ++ arriveEvents) := hp
  refine ⟨_, moveToFloor_eq B s hA hB, rfl, ?_, ?_, ?_, ?_⟩
  · rw [hs']; exact h1
  · rw [hs']; exact h2
  · rw [hs']; exact h3
  · intro i hi
    rw [hs']
    have hget := congrArg (fun l => l.getD i Level.LOW) h3
    have hi' : i = 0 ∨ i = 1 ∨ i = 2 ∨ i = 3 ∨ i = 4 := by omega
    rcases hi' with rfl | rfl | rfl | rfl | rfl <;>
      · simp only [ledPins, List.map, List.getD_cons_zero, List.getD_cons_succ,
          List.range_succ, List.range_zero, List.nil_append, List.cons_append] at hget
        simp only [ledPins, List.getD_cons_zero, List.getD_cons_succ]
        rw [hget]
        split <;> simp_all

/-- Witness for C6: a move from floor 2 to floor 5. -/
theorem C6_floor_display_consistency_witness :
    (5 : Int) ≠ (exampleState [5, 0, 0, 0, 0] 1 2 false).currentFloor ∧
    ∃ s', moveToFloor 5 (exampleState [5, 0, 0, 0, 0] 1 2 false) = some s' ∧
      s'.currentFloor = 5 ∧
      some (segmentPins.map s'.pins) = floorNumbers[((5 : Int) - 1).toNat]? ∧
      segmentPins.map s'.pins = (digitGlyph 5).map activeLow ∧
      ledPins.map s'.pins =
        (List.range 5).map (fun (i : Nat) =>
          if (i : Int) + 1 = 5 then Level.HIGH else Level.LOW) ∧
      (∀ i, i < 5 → (s'.pins (ledPins.getD i 0) = Level.HIGH ↔ (i : Int) + 1 = 5)) :=
  ⟨by decide, C6_floor_display_consistency (exampleState [5, 0, 0, 0, 0] 1 2 false) 5
    (by decide) (by decide) (by decide)⟩

/-- C8 (move stepping and timing): let `B` differ from `currentFloor = A`.  Whenever
`moveToFloor(B)` returns (it does for all floors `A`, `B` of `1..5`), it has performed,
apart from pin writes, exactly: the call itself; then for each floor `i` of `A+1, ..., B`
(if `B > A`) or `A-1, ..., B` (if `B < A`), in that order, one `delay(1000)` followed by
`displayFloor(i)` and `lightFloorLed(i)`; then one `delay(3000)`.  The total delay is
`1000 * |B - A| + 3000` ms. -/
theorem C8_move_stepping_timing (s : State) (B : Int) (hne : B ≠ s.currentFloor) :
    ((1 ≤ s.currentFloor ∧ s.currentFloor ≤ 5) → (1 ≤ B ∧ B ≤ 5) →
      ∃ s', moveToFloor B s = some s') ∧
    ∀ s', moveToFloor B s = some s' →
      ∃ evs, s'.trace = s.trace ++ evs ∧
        evs.filter Event.isStep =
          Event.callMoveToFloor B ::
            ((floorsBetween s.currentFloor B).flatMap
                (fun i => [Event.delay 1000, Event.callDisplayFloor i,
                  Event.callLightFloorLed i]) ++
              [Event.delay 3000]) ∧
        floorsBetween s.currentFloor B =
          (if s.currentFloor < B
           then countUp (s.currentFloor + 1) (B - s.currentFloor).toNat
           else countDown (s.currentFloor - 1) (s.currentFloor - B).toNat) ∧
        totalDelay evs = 1000 * (B - s.currentFloor).natAbs + 3000 := by
  refine ⟨fun hA hB => ⟨_, moveToFloor_eq B s hA hB⟩, ?_⟩
  intro s' h
  rw [moveToFloor_some B s s' h]
  refine ⟨_, rfl, filter_isStep_moveEvents _ _ hne, rfl, ?_⟩
  rw [← totalDelay_filter, filter_isStep_moveEvents _ _ hne]
  have : Event.callMoveToFloor B :: ((floorsBetween s.currentFloor B).flatMap stepSkeleton ++
      [Event.delay 3000]) = [Event.callMoveToFloor B] ++
      ((floorsBetween s.currentFloor B).flatMap stepSkeleton ++ [Event.delay 3000]) := rfl
  rw [this, totalDelay_append, totalDelay_append, totalDelay_flatMap_stepSkeleton,
    floorsBetween_length]
  simp [totalDelay]

/-- Worked example for C8: a move from floor 1 to floor 3 passes floors 2 and 3 and takes
5000 ms. -/
theorem C8_move_stepping_timing_witness :
    (3 : Int) ≠ (exampleState [3, 0, 0, 0, 0] 1 1 false).currentFloor ∧
    ∃ s' evs, moveToFloor 3 (exampleState [3, 0, 0, 0, 0] 1 1 false) = some s' ∧
      s'.trace = (exampleState [3, 0, 0, 0, 0] 1 1 false).trace ++ evs ∧
      evs.filter Event.isStep =
        [Event.callMoveToFloor 3,
         Event.delay 1000, Event.callDisplayFloor 2, Event.callLightFloorLed 2,
         Event.delay 1000, Event.callDisplayFloor 3, Event.callLightFloorLed 3,
         Event.delay 3000] ∧
      totalDelay evs = 5000 := by
  obtain ⟨hdef, hres⟩ :=
    C8_move_stepping_timing (exampleState [3, 0, 0, 0, 0] 1 1 false) 3 (by decide)
  obtain ⟨s', hs'⟩ := hdef (by decide) (by decide)
  obtain ⟨evs, htr, hsk, _, htd⟩ := hres s' hs'
  exact ⟨by decide, s', evs, hs', htr, hsk, htd⟩

theorem queueOnly_refl (s : State) : QueueOnly s s := rfl

theorem queueOnly_trans {s1 s2 s3 : State} (h12 : QueueOnly s1 s2) (h23 : QueueOnly s2 s3) :
    QueueOnly s1 s3 := by
  unfold QueueOnly at *
  rw [h23, h12]

theorem checkButton_queueOnly (read : Nat → Level) (i : Nat) (s s' : State)
    (h : checkButton read i s = some s') : QueueOnly s s' := by
  unfold checkButton at h
  by_cases hp : read (buttonPins.getD i 0) = Level.LOW
  · rw [if_pos hp] at h
    cases hq : isInQueue ((i : Int) + 1) s with
    | none => rw [hq] at h; cases h
    | some b =>
      rw [hq] at h
      by_cases hc : (!b && decide (s.queueSize < 5)) = true
      · simp only [hc, if_true] at h
        unfold storeQueue at h
        by_cases hl : s.queueSize < s.floorQueue.length
        · simp only [hl, if_true] at h
          cases h
          rfl
        · simp only [hl, if_false] at h
          cases h
      · simp only [hc] at h
        cases h
        rfl
  · rw [if_neg hp] at h
    cases h
    rfl

theorem checkButtonsFrom_queueOnly (read : Nat → Level) (is : List Nat) :
    ∀ (s s' : State), checkButtonsFrom read is s = some s' → QueueOnly s s' := by
  induction is with
  | nil =>
    intro s s' h
    simp only [checkButtonsFrom, Option.some.injEq] at h
    subst h
    rfl
  | cons i is ih =>
    intro s s' h
    unfold checkButtonsFrom at h
    split at h
    · exact absurd h (by simp)
    · next s1 h1 =>
      exact queueOnly_trans (checkButton_queueOnly read i s s1 h1) (ih s1 s' h)

/-- Polling with `checkButtons` changes nothing except `floorQueue` and `queueSize`. -/
theorem checkButtons_queueOnly (read : Nat → Level) (s s' : State)
    (h : checkButtons read s = some s') : QueueOnly s s' :=
  checkButtonsFrom_queueOnly read _ s s' h

theorem checkButton_wellFormed (read : Nat → Level) (i : Nat) (hi : i < 5) (s : State)
    (h : WellFormed s) : ∃ s', checkButton read i s = some s' ∧ WellFormed s' := by
  obtain ⟨hlen, hq, hr, hcur⟩ := h
  rw [checkButton_eq read i s hlen hq]
  by_cases hc : read (buttonPins.getD i 0) = Level.LOW ∧ ((i : Int) + 1) ∉ s.queue ∧
      s.queueSize < 5
  · rw [if_pos hc]
    have hqe := queue_enqueue ((i : Int) + 1) s (by omega)
    refine ⟨_, rfl, by simp [enqueue, hlen], by simp only [enqueue]; omega, ?_, hcur⟩
    intro f hf
    rw [hqe] at hf
    rcases List.mem_append.mp hf with hf | hf
    · exact hr f hf
    · have : f = (i : Int) + 1 := by simpa using hf
      omega
  · rw [if_neg hc]
    exact ⟨_, rfl, hlen, hq, hr, hcur⟩

theorem checkButtonsFrom_wellFormed (read : Nat → Level) (is : List Nat)
    (his : ∀ i ∈ is, i < 5) :
    ∀ (s : State), WellFormed s →
      ∃ s', checkButtonsFrom read is s = some s' ∧ WellFormed s' := by
  induction is with
  | nil => intro s h; exact ⟨s, rfl, h⟩
  | cons i is ih =>
    intro s h
    obtain ⟨s1, h1, hwf1⟩ := checkButton_wellFormed read i (his i (List.mem_cons_self _ _)) s h
    obtain ⟨s2, h2, hwf2⟩ := ih (fun j hj => his j (List.mem_cons_of_mem _ hj)) s1 hwf1
    exact ⟨s2, by simp [checkButtonsFrom, h1, h2], hwf2⟩

theorem checkButtons_wellFormed (read : Nat → Level) (s : State) (h : WellFormed s) :
    ∃ s', checkButtons read s = some s' ∧ WellFormed s' ∧ QueueOnly s s' := by
  obtain ⟨s', h1, h2⟩ :=
    checkButtonsFrom_wellFormed read (List.range 5) (fun i hi => List.mem_range.mp hi) s h
  exact ⟨s', h1, h2, checkButtons_queueOnly read s s' h1⟩

theorem ulongSub_mod_right (a b : Nat) : ulongSub a (b % ulongMod) = ulongSub a b := by
  simp [ulongSub]

/-- What an iteration of `loop()` does when a window is active on entry. -/
theorem loop_active (nowStart nowCheck : Nat) (read : Nat → Level) (s : State)
    (hact : s.inputInProgress = true) :
    loop nowStart nowCheck read s =
      match checkButtons read s with
      | none => none
      | some s2 =>
        if 6000 ≤ ulongSub nowCheck s.inputStartTime then
          if 0 < s2.queueSize then processQueue { s2 with inputInProgress := false }
          else some { s2 with inputInProgress := false }
        else some s2 := by
  unfold loop
  simp only [hact, Bool.not_true, Bool.false_eq_true, if_false, if_true]
  cases hcb : checkButtons read s with
  | none => rfl
  | some s2 =>
    have hfr := checkButtons_queueOnly read s s2 hcb
    have hst : s2.inputStartTime = s.inputStartTime := by rw [hfr]
    simp [windowExpired, hst]

/-- An iteration of `loop()` entered with no window active first opens one. -/
theorem loop_inactive (nowStart nowCheck : Nat) (read : Nat → Level) (s : State)
    (hact : s.inputInProgress = false) :
    loop nowStart nowCheck read s =
      loop nowStart nowCheck read (startInputPeriod nowStart s) := by
  have h1 : (startInputPeriod nowStart s).inputInProgress = true := rfl
  unfold loop
  simp [hact, h1]

theorem lastFloor_range (ts : List Int) :
    ∀ (cur : Int), (1 ≤ cur ∧ cur ≤ 5) → (∀ f ∈ ts, 1 ≤ f ∧ f ≤ 5) →
      1 ≤ lastFloor cur ts ∧ lastFloor cur ts ≤ 5 := by
  induction ts with
  | nil => intro cur hcur _; exact hcur
  | cons t ts ih =>
    intro cur _ hr
    exact ih t (hr t (List.mem_cons_self _ _)) (fun f hf => hr f (List.mem_cons_of_mem _ hf))

theorem pollState_active (nowStart : Nat) (s : State) :
    (pollState nowStart s).inputInProgress = true := by
  unfold pollState
  cases h : s.inputInProgress <;> simp [startInputPeriod, h]

theorem pollState_wellFormed (nowStart : Nat) (s : State) (h : WellFormed s) :
    WellFormed (pollState nowStart s) := by
  unfold pollState
  cases hact : s.inputInProgress
  · exact h
  · exact h

theorem loop_eq_pollState (nowStart nowCheck : Nat) (read : Nat → Level) (s : State) :
    loop nowStart nowCheck read s = loop nowStart nowCheck read (pollState nowStart s) := by
  unfold pollState
  cases hact : s.inputInProgress
  · exact loop_inactive nowStart nowCheck read s hact
  · rfl

/-- One iteration of `loop()` on a well-formed state, spelled out. -/
theorem loop_step (nowStart nowCheck : Nat) (read : Nat → Level) (s : State)
    (hwf : WellFormed s) :
    ∃ s2, checkButtons read (pollState nowStart s) = some s2 ∧ WellFormed s2 ∧
      QueueOnly (pollState nowStart s) s2 ∧
      loop nowStart nowCheck read s =
        (if 6000 ≤ ulongSub nowCheck (pollState nowStart s).inputStartTime then
          (if 0 < s2.queueSize then
            some { s2.out (Event.callProcessQueue :: tripEvents s2.currentFloor s2.queue) with
              currentFloor := lastFloor s2.currentFloor s2.queue
              queueSize := 0
              inputInProgress := false }
          else some { s2 with inputInProgress := false })
        else some s2) := by
  obtain ⟨s2, h2, hwf2, hfr⟩ :=
    checkButtons_wellFormed read (pollState nowStart s) (pollState_wellFormed nowStart s hwf)
  refine ⟨s2, h2, hwf2, hfr, ?_⟩
  rw [loop_eq_pollState, loop_active _ _ _ _ (pollState_active nowStart s), h2]
  simp only
  obtain ⟨hlen, hq, hr, hcur⟩ := hwf2
  have hp := processQueue_eq ({ s2 with inputInProgress := false } : State)
    (by show s2.queueSize ≤ s2.floorQueue.length; omega) hcur hr
  rw [hp]
  rfl

theorem setup_initial (pins0 : Nat → Level) :
    setup (initial pins0) = some ((initial pins0).out setupEvents) := by
  unfold setup
  have hc : (initial pins0).currentFloor = 1 := rfl
  rw [hc, clearDisplay_eq_out, displayFloor_eq_out 1 _ (by decide) (by decide)]
  simp only [lightFloorLed_eq_out, out_out, setupEvents]

theorem wellFormed_boot (pins0 : Nat → Level) :
    WellFormed ((initial pins0).out setupEvents) := by
  refine ⟨rfl, ?_, ?_, ?_, ?_⟩
  · show (0 : Nat) ≤ 5
    omega
  · intro f hf
    simp [State.queue, State.out, initial] at hf
  · show (1 : Int) ≤ 1
    omega
  · show (1 : Int) ≤ 5
    omega

theorem pollState_trace (nowStart : Nat) (s : State) :
    (pollState nowStart s).trace =
      s.trace ++ (if s.inputInProgress then [] else [Event.callStartInputPeriod]) := by
  unfold pollState
  cases s.inputInProgress <;> simp [startInputPeriod, emit]

theorem pollState_frame (nowStart : Nat) (s : State) :
    (pollState nowStart s).pins = s.pins ∧
      (pollState nowStart s).currentFloor = s.currentFloor := by
  unfold pollState
  cases s.inputInProgress <;> exact ⟨rfl, rfl⟩

/-- Everything one iteration of `loop()` does on a well-formed state. -/
theorem loop_spec (nowStart nowCheck : Nat) (read : Nat → Level) (s : State)
    (hwf : WellFormed s) :
    ∃ s2 s' post, checkButtons read (pollState nowStart s) = some s2 ∧
      loop nowStart nowCheck read s = some s' ∧ WellFormed s' ∧
      s'.trace = (pollState nowStart s).trace ++ post ∧
      s'.inputStartTime = (pollState nowStart s).inputStartTime ∧
      (s'.inputInProgress = false ↔
        6000 ≤ ulongSub nowCheck (pollState nowStart s).inputStartTime) ∧
      (s'.inputInProgress = false → s'.queueSize = 0) ∧
      (s'.inputInProgress = false → 0 < s2.queueSize →
        loop nowStart nowCheck read s = processQueue { s2 with inputInProgress := false } ∧
        post = Event.callProcessQueue :: tripEvents s2.currentFloor s2.queue) ∧
      (s'.inputInProgress = false → s2.queueSize = 0 →
        post = [] ∧ s'.pins = s.pins ∧ s'.currentFloor = s.currentFloor) := by
  obtain ⟨s2, h2, hwf2, hfr, hloop⟩ := loop_step nowStart nowCheck read s hwf
  have h2act : s2.inputInProgress = true := by
    rw [hfr]; exact pollState_active nowStart s
  have h2tr : s2.trace = (pollState nowStart s).trace := by rw [hfr]
  have h2st : s2.inputStartTime = (pollState nowStart s).inputStartTime := by rw [hfr]
  have h2pins : s2.pins = s.pins := by rw [hfr]; exact (pollState_frame nowStart s).1
  have h2cur : s2.currentFloor = s.currentFloor := by
    rw [hfr]; exact (pollState_frame nowStart s).2
  obtain ⟨hlen, hq, hr, hcur⟩ := hwf2
  by_cases hexp : 6000 ≤ ulongSub nowCheck (pollState nowStart s).inputStartTime
  · rw [if_pos hexp] at hloop
    by_cases hpos : 0 < s2.queueSize
    · rw [if_pos hpos] at hloop
      have hp := processQueue_eq ({ s2 with inputInProgress := false } : State)
        (by show s2.queueSize ≤ s2.floorQueue.length; omega) hcur hr
      refine ⟨s2, _, Event.callProcessQueue :: tripEvents s2.currentFloor s2.queue, h2,
        hloop, ⟨hlen, by show 0 ≤ 5; omega, ?_, lastFloor_range _ _ hcur hr⟩, ?_, h2st,
        ⟨fun _ => hexp, fun _ => rfl⟩, fun _ => rfl, fun _ _ => ⟨?_, rfl⟩,
        fun _ h0 => absurd h0 (by omega)⟩
      · intro f hf
        simp [State.queue] at hf
      · show s2.trace ++ _ = _
        rw [h2tr]
      · rw [hloop, hp]
        rfl
    · rw [if_neg hpos] at hloop
      refine ⟨s2, _, [], h2, hloop, ⟨hlen, hq, hr, hcur⟩, ?_, h2st,
        ⟨fun _ => hexp, fun _ => rfl⟩, fun _ => by show s2.queueSize = 0; omega,
        fun _ h0 => absurd h0 hpos, fun _ _ => ⟨rfl, h2pins, h2cur⟩⟩
      show s2.trace = _
      rw [h2tr, List.append_nil]
  · rw [if_neg hexp] at hloop
    have hno : ¬ s2.inputInProgress = false := by rw [h2act]; simp
    refine ⟨s2, s2, [], h2, hloop, ⟨hlen, hq, hr, hcur⟩, by rw [h2tr, List.append_nil], h2st,
      ⟨fun h => absurd h hno, fun h => absurd h hexp⟩, fun h => absurd h hno,
      fun h => absurd h hno, fun h => absurd h hno⟩

theorem runLoops_wellFormed (inputs : List (Nat × Nat × (Nat → Level))) :
    ∀ (s : State), WellFormed s → (s.inputInProgress = false → s.queueSize = 0) →
      ∃ s', runLoops inputs s = some s' ∧ WellFormed s' ∧
        (s'.inputInProgress = false → s'.queueSize = 0) := by
  induction inputs with
  | nil => intro s hwf hidle; exact ⟨s, rfl, hwf, hidle⟩
  | cons x rest ih =>
    intro s hwf _
    obtain ⟨a, b, r⟩ := x
    obtain ⟨_, s1, _, _, h1, hwf1, _, _, _, hidle1, _, _⟩ := loop_spec a b r s hwf
    obtain ⟨s', h', hwf', hidle'⟩ := ih s1 hwf1 hidle1
    exact ⟨s', by simp [runLoops, h1, h'], hwf', hidle'⟩

theorem exampleState_wellFormed_one : WellFormed (exampleState [4, 0, 0, 0, 0] 1 1 true) :=
  ⟨rfl, by decide, by decide, by decide, by decide⟩

/-- C9 (window expiry): whenever a `loop()` iteration returns (it does on every
well-formed state), the window that is active at the poll (the one already open on
entry, or the one the iteration has just opened) has been closed (`inputInProgress` is
`false`) if and only if the unsigned difference `millis() - inputStartTime` was at least
`6000` at the check.  When the clock reads `inputStartTime + 5999` the window stays open
and nothing is dispatched (no event is performed after the poll, pins and `currentFloor`
are unchanged); when it reads `inputStartTime + 6000` the window closes. -/
theorem C9_window_expiry (nowStart nowCheck : Nat) (read : Nat → Level) (s : State) :
    (WellFormed s → ∃ s', loop nowStart nowCheck read s = some s') ∧
    ∀ s', loop nowStart nowCheck read s = some s' →
      (s.inputInProgress = true → pollState nowStart s = s) ∧
      (s'.inputInProgress = false ↔
        6000 ≤ ulongSub nowCheck (pollState nowStart s).inputStartTime) ∧
      (nowCheck = (pollState nowStart s).inputStartTime + 5999 →
        s'.inputInProgress = true ∧ s'.trace = (pollState nowStart s).trace ∧
          s'.pins = s.pins ∧ s'.currentFloor = s.currentFloor) ∧
      (nowCheck = (pollState nowStart s).inputStartTime + 6000 →
        s'.inputInProgress = false) := by
  refine ⟨fun hwf => ?_, ?_⟩
  · obtain ⟨_, s', _, _, hloop, _⟩ := loop_spec nowStart nowCheck read s hwf
    exact ⟨s', hloop⟩
  intro s' h
  have hps : s.inputInProgress = true → pollState nowStart s = s := by
    intro hact
    simp [pollState, hact]
  rw [loop_eq_pollState, loop_active _ _ _ _ (pollState_active nowStart s)] at h
  cases hcb : checkButtons read (pollState nowStart s) with
  | none => rw [hcb] at h; cases h
  | some s2 =>
    rw [hcb] at h
    simp only at h
    have hfr := checkButtons_queueOnly read _ s2 hcb
    have h2act : s2.inputInProgress = true := by
      rw [hfr]; exact pollState_active nowStart s
    have h2tr : s2.trace = (pollState nowStart s).trace := by rw [hfr]
    have h2pins : s2.pins = s.pins := by
      rw [hfr]; exact (pollState_frame nowStart s).1
    have h2cur : s2.currentFloor = s.currentFloor := by
      rw [hfr]; exact (pollState_frame nowStart s).2
    by_cases hexp : 6000 ≤ ulongSub nowCheck (pollState nowStart s).inputStartTime
    · rw [if_pos hexp] at h
      have h5999 : nowCheck ≠ (pollState nowStart s).inputStartTime + 5999 := by
        intro hc
        rw [hc] at hexp
        simp only [ulongSub, ulongMod] at hexp
        omega
      have hclosed : s'.inputInProgress = false := by
        by_cases hq : 0 < s2.queueSize
        · rw [if_pos hq] at h
          rw [processQueue_some _ s' h]
          rfl
        · rw [if_neg hq] at h
          cases h
          rfl
      exact ⟨hps, ⟨fun _ => hexp, fun _ => hclosed⟩, fun hc => absurd hc h5999,
        fun _ => hclosed⟩
    · rw [if_neg hexp] at h
      cases h
      have h6000 : nowCheck ≠ (pollState nowStart s).inputStartTime + 6000 := by
        intro hc
        rw [hc] at hexp
        simp only [ulongSub, ulongMod] at hexp
        omega
      refine ⟨hps, ⟨fun hc => ?_, fun hc => absurd hc hexp⟩,
        fun _ => ⟨h2act, h2tr, h2pins, h2cur⟩, fun hc => absurd hc h6000⟩
      rw [h2act] at hc
      cases hc

/-- Worked example for C9: a window opened at clock value 0 is still open at the check
when the clock reads 5999 and is closed when it reads 6000. -/
theorem C9_window_expiry_witness :
    (∃ s', loop 0 5999 noButton (exampleState [4, 0, 0, 0, 0] 1 1 true) = some s' ∧
      s'.inputInProgress = true) ∧
    (∃ s', loop 0 6000 noButton (exampleState [4, 0, 0, 0, 0] 1 1 true) = some s' ∧
      s'.inputInProgress = false) := by
  obtain ⟨hdef1, hres1⟩ :=
    C9_window_expiry 0 5999 noButton (exampleState [4, 0, 0, 0, 0] 1 1 true)
  obtain ⟨hdef2, hres2⟩ :=
    C9_window_expiry 0 6000 noButton (exampleState [4, 0, 0, 0, 0] 1 1 true)
  obtain ⟨s1, hs1⟩ := hdef1 exampleState_wellFormed_one
  obtain ⟨s2, hs2⟩ := hdef2 exampleState_wellFormed_one
  exact ⟨⟨s1, hs1, ((hres1 s1 hs1).2.2.1 rfl).1⟩, ⟨s2, hs2, (hres2 s2 hs2).2.2.2 rfl⟩⟩

/-- C10 (idle restart / window hand-off): in every state `s` reached from the initial
state by `setup()` and any number of `loop()` iterations, `inputInProgress = false`
implies `queueSize = 0`.  Moreover every further iteration from `s` is defined; if the
window expires in it (`inputInProgress` is `false` afterwards, equivalently the expiry
test holds), then `processQueue` is run exactly when the queue size at the test is
positive, otherwise no pin is written, no delay performed and `currentFloor` is unchanged;
and the very next iteration first calls `startInputPeriod` (making `inputInProgress`
true and `inputStartTime` the current `millis()`), so that after it `inputStartTime` is
that clock value and the window is open unless it already expired again. -/
theorem C10_idle_restart (pins0 : Nat → Level) (inputs : List (Nat × Nat × (Nat → Level))) :
    ∃ s0 s, setup (initial pins0) = some s0 ∧ runLoops inputs s0 = some s ∧
      (s.inputInProgress = false → s.queueSize = 0) ∧
      ∀ (nowStart nowCheck : Nat) (read : Nat → Level),
        ∃ s2 s' evs, checkButtons read (pollState nowStart s) = some s2 ∧
          loop nowStart nowCheck read s = some s' ∧ s'.trace = s.trace ++ evs ∧
          (s'.inputInProgress = false ↔
            6000 ≤ ulongSub nowCheck (pollState nowStart s).inputStartTime) ∧
          (s'.inputInProgress = false →
            s'.queueSize = 0 ∧
            (Event.callProcessQueue ∈ evs ↔ 0 < s2.queueSize) ∧
            (0 < s2.queueSize → loop nowStart nowCheck read s =
              processQueue { s2 with inputInProgress := false }) ∧
            (s2.queueSize = 0 → s'.pins = s.pins ∧ s'.currentFloor = s.currentFloor ∧
              evs.filter Event.isEffect = []) ∧
            ∀ (nowStart2 nowCheck2 : Nat) (read2 : Nat → Level),
              ∃ s3 evs2, loop nowStart2 nowCheck2 read2 s' = some s3 ∧
                loop nowStart2 nowCheck2 read2 s' =
                  loop nowStart2 nowCheck2 read2 (startInputPeriod nowStart2 s') ∧
                (startInputPeriod nowStart2 s').inputInProgress = true ∧
                (startInputPeriod nowStart2 s').inputStartTime = nowStart2 % ulongMod ∧
                s3.trace = s'.trace ++ Event.callStartInputPeriod :: evs2 ∧
                s3.inputStartTime = nowStart2 % ulongMod ∧
                (ulongSub nowCheck2 nowStart2 < 6000 → s3.inputInProgress = true)) := by
  obtain ⟨s, hrun, hwf, hidle⟩ := runLoops_wellFormed inputs _ (wellFormed_boot pins0)
    (fun _ => rfl)
  refine ⟨_, s, setup_initial pins0, hrun, hidle, ?_⟩
  intro nowStart nowCheck read
  obtain ⟨s2, s', post, h2, hloop, hwf', htr, _, hiff, hq0, hpos, hzero⟩ :=
    loop_spec nowStart nowCheck read s hwf
  rw [pollState_trace, List.append_assoc] at htr
  refine ⟨s2, s', _, h2, hloop, htr, hiff, ?_⟩
  intro hclosed
  refine ⟨hq0 hclosed, ?_, fun h => (hpos hclosed h).1, ?_, ?_⟩
  · constructor
    · intro hmem
      by_contra hn
      have h0 : s2.queueSize = 0 := by omega
      rw [(hzero hclosed h0).1] at hmem
      cases s.inputInProgress <;> simp at hmem
    · intro h
      rw [(hpos hclosed h).2]
      exact List.mem_append_right _ (List.mem_cons_self _ _)
  · intro h0
    obtain ⟨hpost, hpins, hcur⟩ := hzero hclosed h0
    refine ⟨hpins, hcur, ?_⟩
    rw [hpost]
    cases s.inputInProgress <;> rfl
  · intro nowStart2 nowCheck2 read2
    obtain ⟨_, s3, post2, _, hloop2, _, htr2, hst2, hiff2, _, _, _⟩ :=
      loop_spec nowStart2 nowCheck2 read2 s' hwf'
    have hps : pollState nowStart2 s' = startInputPeriod nowStart2 s' := by
      simp [pollState, hclosed]
    rw [hps] at htr2 hst2 hiff2
    refine ⟨s3, post2, hloop2, loop_inactive _ _ _ _ hclosed, rfl, rfl, ?_, hst2, ?_⟩
    · rw [htr2]
      simp [startInputPeriod, emit]
    · intro hlt
      cases hact : s3.inputInProgress
      · have := hiff2.mp hact
        have hst0 : (startInputPeriod nowStart2 s').inputStartTime = nowStart2 % ulongMod := rfl
        rw [hst0, ulongSub_mod_right] at this
        omega
      · rfl

theorem checkButton_not_pressed (read : Nat → Level) (i : Nat) (s : State)
    (h : read (buttonPins.getD i 0) = Level.HIGH) : checkButton read i s = some s := by
  unfold checkButton
  rw [h]
  rfl

theorem checkButtons_noButton (s : State) : checkButtons noButton s = some s := by
  have h : ∀ i s, checkButton noButton i s = some s :=
    fun i s => checkButton_not_pressed noButton i s rfl
  simp [checkButtons, List.range_succ, checkButtonsFrom, h]

/-- Polling when exactly the button with index `k` is pressed. -/
theorem checkButtons_onlyButton (k : Nat) (hk : k < 5) (s : State)
    (hlen : s.floorQueue.length = 5) (hq : s.queueSize ≤ 5) :
    checkButtons (onlyButton k) s =
      some (if ((k : Int) + 1) ∉ s.queue ∧ s.queueSize < 5 then enqueue ((k : Int) + 1) s
        else s) := by
  have hread : ∀ i, i < 5 → i ≠ k → onlyButton k (buttonPins.getD i 0) = Level.HIGH := by
    intro i hi hne
    have hi' : i = 0 ∨ i = 1 ∨ i = 2 ∨ i = 3 ∨ i = 4 := by omega
    have hk' : k = 0 ∨ k = 1 ∨ k = 2 ∨ k = 3 ∨ k = 4 := by omega
    rcases hi' with rfl | rfl | rfl | rfl | rfl <;>
      rcases hk' with rfl | rfl | rfl | rfl | rfl <;>
      first
        | exact absurd rfl hne
        | rfl
  have hself : onlyButton k (buttonPins.getD k 0) = Level.LOW := by simp [onlyButton]
  have hstep := checkButton_eq (onlyButton k) k s hlen hq
  simp only [hself, true_and] at hstep
  have hk' : k = 0 ∨ k = 1 ∨ k = 2 ∨ k = 3 ∨ k = 4 := by omega
  rcases hk' with rfl | rfl | rfl | rfl | rfl <;>
    simp [checkButtons, List.range_succ, checkButtonsFrom, hstep,
      checkButton_not_pressed _ _ _ (hread _ _ _)]

theorem checkButtonsRepeated_append (r1 r2 : List (Nat → Level)) :
    ∀ (s : State), checkButtonsRepeated (r1 ++ r2) s =
      match checkButtonsRepeated r1 s with
      | none => none
      | some s1 => checkButtonsRepeated r2 s1 := by
  induction r1 with
  | nil => intro s; rfl
  | cons r r1 ih =>
    intro s
    simp only [List.cons_append, checkButtonsRepeated]
    cases checkButtons r s with
    | none => rfl
    | some s1 => exact ih s1

theorem checkButtonsRepeated_quiet (n : Nat) (s : State) :
    checkButtonsRepeated (List.replicate n noButton) s = some s := by
  induction n with
  | zero => rfl
  | succ n ih => simp [List.replicate_succ, checkButtonsRepeated, checkButtons_noButton, ih]

/-- While the window stays open, iterations of `loop()` only poll; the iteration in which
it expires polls and then dispatches. -/
theorem runLoops_window (pre : List (Nat × Nat × (Nat → Level)))
    (last : Nat × Nat × (Nat → Level)) :
    ∀ (s : State), s.inputInProgress = true →
      (∀ x ∈ pre, ulongSub x.2.1 s.inputStartTime < 6000) →
      6000 ≤ ulongSub last.2.1 s.inputStartTime →
      runLoops (pre ++ [last]) s =
        match checkButtonsRepeated ((pre ++ [last]).map (fun x => x.2.2)) s with
        | none => none
        | some s2 => dispatch s2 := by
  induction pre with
  | nil =>
    intro s hact _ hclose
    obtain ⟨a, b, r⟩ := last
    have h1 : runLoops ([] ++ [(a, b, r)]) s = loop a b r s := by
      show (match loop a b r s with
        | none => none
        | some s1 => some s1) = _
      cases loop a b r s <;> rfl
    rw [h1, loop_active a b r s hact]
    show _ = match (match checkButtons r s with
        | none => none
        | some s1 => some s1) with
      | none => none
      | some s2 => dispatch s2
    cases checkButtons r s with
    | none => rfl
    | some s2 =>
      have hclose' : 6000 ≤ ulongSub b s.inputStartTime := hclose
      simp only [hclose', if_true, dispatch]
  | cons x pre ih =>
    intro s hact hopen hclose
    obtain ⟨a, b, r⟩ := x
    have hb : ¬ 6000 ≤ ulongSub b s.inputStartTime := by
      have := hopen (a, b, r) (List.mem_cons_self _ _)
      simpa using this
    simp only [List.cons_append, runLoops, List.map_cons, checkButtonsRepeated]
    rw [loop_active a b r s hact]
    cases hcb : checkButtons r s with
    | none => rfl
    | some s2 =>
      have hfr := checkButtons_queueOnly r s s2 hcb
      have h2act : s2.inputInProgress = true := by rw [hfr]; exact hact
      have h2st : s2.inputStartTime = s.inputStartTime := by rw [hfr]
      simp only [hb, if_false]
      apply ih s2 h2act
      · intro y hy
        rw [h2st]
        exact hopen y (List.mem_cons_of_mem _ hy)
      · rw [h2st]; exact hclose

theorem runLoops_inactive (inputs : List (Nat × Nat × (Nat → Level))) (t0 : Nat) (s : State)
    (hne : inputs ≠ []) (hstart : ∀ x ∈ inputs.head?, x.1 = t0)
    (hact : s.inputInProgress = false) :
    runLoops inputs s = runLoops inputs (startInputPeriod t0 s) := by
  cases inputs with
  | nil => exact absurd rfl hne
  | cons x rest =>
    obtain ⟨a, b, r⟩ := x
    have ha : a = t0 := hstart (a, b, r) rfl
    subst ha
    simp only [runLoops]
    rw [loop_inactive a b r s hact]

theorem checkButtonsRepeated_scenario (a b c : Nat) (s : State)
    (hlen : s.floorQueue.length = 5) (h0 : s.queueSize = 0) :
    checkButtonsRepeated (List.replicate a noButton ++ onlyButton 3 ::
      (List.replicate b noButton ++ onlyButton 1 :: List.replicate c noButton)) s =
      some (enqueue 2 (enqueue 4 s)) := by
  have hq : s.queue = [] := by simp [State.queue, h0]
  have h4 : checkButtons (onlyButton 3) s = some (enqueue 4 s) := by
    have h : checkButtons (onlyButton 3) s =
        some (if (4 : Int) ∉ s.queue ∧ s.queueSize < 5 then enqueue 4 s else s) :=
      checkButtons_onlyButton 3 (by decide) s hlen (by omega)
    rw [h, if_pos ⟨by rw [hq]; simp, by omega⟩]
  have hq4 : (enqueue 4 s).queue = [4] := by
    rw [queue_enqueue 4 s (by omega), hq]; rfl
  have hs4 : (enqueue 4 s).queueSize = 1 := by simp [enqueue, h0]
  have h2 : checkButtons (onlyButton 1) (enqueue 4 s) = some (enqueue 2 (enqueue 4 s)) := by
    have h : checkButtons (onlyButton 1) (enqueue 4 s) =
        some (if (2 : Int) ∉ (enqueue 4 s).queue ∧ (enqueue 4 s).queueSize < 5
          then enqueue 2 (enqueue 4 s) else enqueue 4 s) :=
      checkButtons_onlyButton 1 (by decide) (enqueue 4 s) (by simp [enqueue, hlen])
        (by omega)
    rw [h, if_pos ⟨by rw [hq4]; decide, by omega⟩]
  rw [checkButtonsRepeated_append, checkButtonsRepeated_quiet]
  simp only [checkButtonsRepeated, h4]
  rw [checkButtonsRepeated_append, checkButtonsRepeated_quiet]
  simp only [checkButtonsRepeated, h2]
  exact checkButtonsRepeated_quiet c _

theorem dispatch_scenario (s : State) (hfq : s.floorQueue = [4, 2, 0, 0, 0])
    (hqs : s.queueSize = 2) (hcur : s.currentFloor = 1) :
    dispatch s =
      some { s.out (Event.callProcessQueue :: tripEvents 1 [4, 2]) with
        currentFloor := 2, queueSize := 0, inputInProgress := false } := by
  obtain ⟨fq, qs, cur, st, ip, pins, tr⟩ := s
  simp only at hfq hqs hcur
  subst hfq hqs hcur
  have hp := processQueue_eq
    ({ floorQueue := [4, 2, 0, 0, 0], queueSize := 2, currentFloor := 1, inputStartTime := st,
       inputInProgress := false, pins := pins, trace := tr } : State)
    (by show 2 ≤ 5; omega) (by show (1 : Int) ≤ 1 ∧ (1 : Int) ≤ 5; omega)
    (by
      intro f hf
      have hf' : f ∈ [(4 : Int), 2] := hf
      simp at hf'
      omega)
  unfold dispatch
  rw [if_pos (by show 0 < 2; omega), hp]
  rfl

/-- C7 (end-to-end scenario): start from the initial state after `setup()`
(`currentFloor = 1`, empty queue) and run `loop()` through one window in which the polls
read, in order, any number of times nothing, once only button 4, any number of times
nothing, once only button 2, any number of times nothing; the window (opened at clock
value `t0` by the first iteration) expires at the check of the last of these iterations
and not before.  Then the queue at the expiry test is `[4, 2]`, and the dispatch pass
consists of the moves to 4 and to 2, whose delays and display updates are exactly:
floors 2, 3, 4 each after a `delay(1000)` with up LED `HIGH` and down LED `LOW`, a
`delay(3000)` with both `LOW`, floors 3, 2 each after a `delay(1000)` with up LED `LOW`
and down LED `HIGH`, a `delay(3000)` with both `LOW`.  Finally `currentFloor = 2`, both
direction LEDs are `LOW` and `queueSize = 0`. -/
theorem C7_end_to_end (pins0 : Nat → Level) (inputs : List (Nat × Nat × (Nat → Level)))
    (t0 a b c : Nat)
    (hreads : inputs.map (fun x => x.2.2) =
      List.replicate a noButton ++ onlyButton 3 ::
        (List.replicate b noButton ++ onlyButton 1 :: List.replicate c noButton))
    (hstart : ∀ x ∈ inputs.head?, x.1 = t0)
    (hopen : ∀ x ∈ inputs.dropLast, ulongSub x.2.1 t0 < 6000)
    (hclose : ∀ x ∈ inputs.getLast?, 6000 ≤ ulongSub x.2.1 t0) :
    ∃ s0 sPoll s evs, setup (initial pins0) = some s0 ∧
      s0.currentFloor = 1 ∧ s0.queueSize = 0 ∧
      checkButtonsRepeated (inputs.map (fun x => x.2.2)) (startInputPeriod t0 s0) =
        some sPoll ∧
      sPoll.queue = [4, 2] ∧
      runLoops inputs s0 = some s ∧
      s.trace = s0.trace ++ Event.callStartInputPeriod :: Event.callProcessQueue :: evs ∧
      moveTargets evs = [4, 2] ∧
      observe s0.pins evs =
        [(Event.delay 1000, Level.HIGH, Level.LOW),
         (Event.callDisplayFloor 2, Level.HIGH, Level.LOW),
         (Event.delay 1000, Level.HIGH, Level.LOW),
         (Event.callDisplayFloor 3, Level.HIGH, Level.LOW),
         (Event.delay 1000, Level.HIGH, Level.LOW),
         (Event.callDisplayFloor 4, Level.HIGH, Level.LOW),
         (Event.delay 3000, Level.LOW, Level.LOW),
         (Event.delay 1000, Level.LOW, Level.HIGH),
         (Event.callDisplayFloor 3, Level.LOW, Level.HIGH),
         (Event.delay 1000, Level.LOW, Level.HIGH),
         (Event.callDisplayFloor 2, Level.LOW, Level.HIGH),
         (Event.delay 3000, Level.LOW, Level.LOW)] ∧
      s.currentFloor = 2 ∧ s.pins upLedPin = Level.LOW ∧ s.pins downLedPin = Level.LOW ∧
      s.queueSize = 0 := by
  have hne : inputs ≠ [] := by
    intro h
    rw [h] at hreads
    cases a <;> simp [List.replicate_succ] at hreads
  obtain ⟨pre, last, rfl⟩ : ∃ pre last, inputs = pre ++ [last] := by
    rcases List.eq_nil_or_concat inputs with h | ⟨L, x, h⟩
    · exact absurd h hne
    · exact ⟨L, x, by rw [h, List.concat_eq_append]⟩
  have hopen' : ∀ x ∈ pre, ulongSub x.2.1 t0 < 6000 := by
    intro x hx
    exact hopen x (by simpa using hx)
  have hclose' : 6000 ≤ ulongSub last.2.1 t0 := hclose last (by simp)
  have hs1 : (startInputPeriod t0 ((initial pins0).out setupEvents)).inputStartTime =
      t0 % ulongMod := rfl
  have hpoll := checkButtonsRepeated_scenario a b c
    (startInputPeriod t0 ((initial pins0).out setupEvents)) rfl rfl
  have hrun := runLoops_window pre last
    (startInputPeriod t0 ((initial pins0).out setupEvents)) rfl
    (by intro x hx; rw [hs1, ulongSub_mod_right]; exact hopen' x hx)
    (by rw [hs1, ulongSub_mod_right]; exact hclose')
  have hrun' : runLoops (pre ++ [last]) ((initial pins0).out setupEvents) =
      dispatch (enqueue 2 (enqueue 4
        (startInputPeriod t0 ((initial pins0).out setupEvents)))) := by
    rw [runLoops_inactive (pre ++ [last]) t0 _ hne hstart rfl, hrun, hreads, hpoll]
  rw [dispatch_scenario _ rfl rfl rfl] at hrun'
  refine ⟨(initial pins0).out setupEvents,
    enqueue 2 (enqueue 4 (startInputPeriod t0 ((initial pins0).out setupEvents))), _,
    tripEvents 1 [4, 2], setup_initial pins0, rfl, rfl, ?_, rfl, hrun', ?_, rfl,
    rfl, rfl, rfl, rfl, rfl⟩
  · rw [hreads]; exact hpoll
  · simp [State.out, startInputPeriod, emit, enqueue]

/-- Witness for C7: button 4 polled at 10 ms, button 2 polled at 7000 ms, window opened
at clock value 0. -/
theorem C7_end_to_end_witness :
    ∃ s0 sPoll s evs, setup (initial (fun _ => Level.LOW)) = some s0 ∧
      s0.currentFloor = 1 ∧ s0.queueSize = 0 ∧
      checkButtonsRepeated
        ([(0, 10, onlyButton 3), (0, 7000, onlyButton 1)].map (fun x => x.2.2))
        (startInputPeriod 0 s0) = some sPoll ∧
      sPoll.queue = [4, 2] ∧
      runLoops [(0, 10, onlyButton 3), (0, 7000, onlyButton 1)] s0 = some s ∧
      s.trace = s0.trace ++ Event.callStartInputPeriod :: Event.callProcessQueue :: evs ∧
      moveTargets evs = [4, 2] ∧
      observe s0.pins evs =
        [(Event.delay 1000, Level.HIGH, Level.LOW),
         (Event.callDisplayFloor 2, Level.HIGH, Level.LOW),
         (Event.delay 1000, Level.HIGH, Level.LOW),
         (Event.callDisplayFloor 3, Level.HIGH, Level.LOW),
         (Event.delay 1000, Level.HIGH, Level.LOW),
         (Event.callDisplayFloor 4, Level.HIGH, Level.LOW),
         (Event.delay 3000, Level.LOW, Level.LOW),
         (Event.delay 1000, Level.LOW, Level.HIGH),
         (Event.callDisplayFloor 3, Level.LOW, Level.HIGH),
         (Event.delay 1000, Level.LOW, Level.HIGH),
         (Event.callDisplayFloor 2, Level.LOW, Level.HIGH),
         (Event.delay 3000, Level.LOW, Level.LOW)] ∧
      s.currentFloor = 2 ∧ s.pins upLedPin = Level.LOW ∧ s.pins downLedPin = Level.LOW ∧
      s.queueSize = 0 :=
  C7_end_to_end (fun _ => Level.LOW) [(0, 10, onlyButton 3), (0, 7000, onlyButton 1)] 0 0 0 0
    rfl
    (by intro x hx; cases hx; rfl)
    (by
      intro x hx
      have hx' : x = (0, 10, onlyButton 3) := by simpa using hx
      subst hx'
      decide)
    (by
      intro x hx
      have hx' : (0, 7000, onlyButton 1) = x := by simpa using hx
      subst hx'
      decide)

theorem pinsAfter_displayFloorEvents_dp (pins : Nat → Level) (floor : Int)
    (h1 : 1 ≤ floor) (h5 : floor ≤ 5) :
    pinsAfter pins (displayFloorEvents floor) dpPin = Level.LOW := by
  have hf : floor = 1 ∨ floor = 2 ∨ floor = 3 ∨ floor = 4 ∨ floor = 5 := by omega
  rcases hf with rfl | rfl | rfl | rfl | rfl <;> rfl

/-- C11 (decimal point), evaluation of the code: for every floor `f` of `1..5`,
`displayFloor(f)` returns with `dpPin` at `LOW`.  Under the common-anode polarity used by
the segment table (`LOW` = lit, `HIGH` = dark) this is the lit level, not the dark level
`HIGH` that `clearDisplay()` writes to the same pin; so after `displayFloor` the decimal
point is on, contrary to the claim. -/
theorem C11_decimal_point_lit (floor : Int) (s : State) (h1 : 1 ≤ floor) (h5 : floor ≤ 5) :
    ∃ s', displayFloor floor s = some s' ∧ s'.pins dpPin = Level.LOW ∧
      s'.pins dpPin = activeLow true ∧ s'.pins dpPin ≠ activeLow false ∧
      (clearDisplay s).pins dpPin = activeLow false := by
  have hp := pinsAfter_displayFloorEvents_dp s.pins floor h1 h5
  refine ⟨_, displayFloor_eq_out floor s h1 h5, hp, hp, ?_, ?_⟩
  · show pinsAfter s.pins (displayFloorEvents floor) dpPin ≠ activeLow false
    rw [hp]
    decide
  · rw [clearDisplay_eq_out]
    rfl

/-- Evaluation for C11 at the failing input: `setup()` from the initial state, which ends
with `displayFloor(1)` and `lightFloorLed(1)`, leaves `dpPin` at `LOW`. -/
theorem C11_decimal_point_lit_witness :
    (1 : Int) ≤ 1 ∧ (1 : Int) ≤ 5 ∧
    (∃ s', displayFloor 1 (initial (fun _ => Level.HIGH)) = some s' ∧
      s'.pins dpPin = Level.LOW ∧ s'.pins dpPin = activeLow true ∧
      s'.pins dpPin ≠ activeLow false ∧
      (clearDisplay (initial (fun _ => Level.HIGH))).pins dpPin = activeLow false) ∧
    ∃ s0, setup (initial (fun _ => Level.HIGH)) = some s0 ∧ s0.pins dpPin = Level.LOW :=
  ⟨by decide, by decide,
    C11_decimal_point_lit 1 (initial (fun _ => Level.HIGH)) (by decide) (by decide),
    _, setup_initial _, rfl⟩

theorem pinsAfter_lightFloorLedEvents (pins : Nat → Level) (floor : Int)
    (h1 : 1 ≤ floor) (h5 : floor ≤ 5) :
    ledPins.map (pinsAfter pins (lightFloorLedEvents floor)) =
      List.replicate (floor - 1).toNat Level.LOW ++ Level.HIGH ::
        List.replicate (5 - floor).toNat Level.LOW := by
  have hf : floor = 1 ∨ floor = 2 ∨ floor = 3 ∨ floor = 4 ∨ floor = 5 := by omega
  rcases hf with rfl | rfl | rfl | rfl | rfl <;> rfl

/-- C13 (floor indicator): for every floor `f` of `1..5` and every previous state,
after `lightFloorLed(f)` the five floor LED pins read `LOW` at the `f - 1` indices below
`f - 1`, `HIGH` at index `f - 1` and `LOW` at the `5 - f` indices above it: exactly one is
`HIGH`, namely `ledPins[f-1]`.  The pins written are exactly the five floor LED pins, every
other pin keeps its level, and no variable changes. -/
theorem C13_floor_indicator (floor : Int) (s : State) (h1 : 1 ≤ floor) (h5 : floor ≤ 5) :
    ledPins.map (lightFloorLed floor s).pins =
        List.replicate (floor - 1).toNat Level.LOW ++ Level.HIGH ::
          List.replicate (5 - floor).toNat Level.LOW ∧
      (ledPins.map (lightFloorLed floor s).pins).count Level.HIGH = 1 ∧
      (lightFloorLed floor s).pins (ledPins.getD (floor - 1).toNat 0) = Level.HIGH ∧
      (∃ evs, (lightFloorLed floor s).trace = s.trace ++ evs ∧ writtenPins evs = ledPins) ∧
      (∀ p, p ∉ ledPins → (lightFloorLed floor s).pins p = s.pins p) ∧
      lightFloorLed floor s =
        { s with pins := (lightFloorLed floor s).pins,
                 trace := (lightFloorLed floor s).trace } := by
  have hmap := pinsAfter_lightFloorLedEvents s.pins floor h1 h5
  rw [lightFloorLed_eq_out]
  refine ⟨hmap, ?_, ?_, ⟨_, rfl, writtenPins_lightFloorLedEvents floor⟩, ?_, rfl⟩
  · show (ledPins.map (pinsAfter s.pins (lightFloorLedEvents floor))).count Level.HIGH = 1
    rw [hmap]
    have hf : floor = 1 ∨ floor = 2 ∨ floor = 3 ∨ floor = 4 ∨ floor = 5 := by omega
    rcases hf with rfl | rfl | rfl | rfl | rfl <;> decide
  · show pinsAfter s.pins (lightFloorLedEvents floor) (ledPins.getD (floor - 1).toNat 0) =
      Level.HIGH
    have hf : floor = 1 ∨ floor = 2 ∨ floor = 3 ∨ floor = 4 ∨ floor = 5 := by omega
    rcases hf with rfl | rfl | rfl | rfl | rfl <;> rfl
  · intro p hp
    exact pinsAfter_of_not_written p _ s.pins
      (by rw [writtenPins_lightFloorLedEvents]; exact hp)

/-- Worked example for C13: floor 3 lights `ledPins[2]` only, whatever was lit before. -/
theorem C13_floor_indicator_witness :
    (1 : Int) ≤ 3 ∧ (3 : Int) ≤ 5 ∧
    ledPins.map (lightFloorLed 3 (initial (fun _ => Level.HIGH))).pins =
      [Level.LOW, Level.LOW, Level.HIGH, Level.LOW, Level.LOW] :=
  ⟨by decide, by decide,
    (C13_floor_indicator 3 (initial (fun _ => Level.HIGH)) (by decide) (by decide)).1⟩

/-- C19 (clock wrap-around): let a window be opened when the true time is `t0`, so that
`inputStartTime = t0 mod 2^32`, and let the expiry test run `e < 2^32` ms later, when
`millis()` returns `(t0 + e) mod 2^32`.  Then the 32-bit unsigned difference
`millis() - inputStartTime` equals `e`, and the test `>= 6000` holds if and only if
`e ≥ 6000`, whether or not the counter wrapped in between. -/
theorem C19_clock_wraparound (t0 e : Nat) (s : State) (he : e < ulongMod) :
    (startInputPeriod t0 s).inputStartTime = t0 % ulongMod ∧
      ulongSub ((t0 + e) % ulongMod) (startInputPeriod t0 s).inputStartTime = e ∧
      ulongSub (t0 + e) (startInputPeriod t0 s).inputStartTime = e ∧
      (windowExpired (t0 + e) (startInputPeriod t0 s) = true ↔ 6000 ≤ e) ∧
      (windowExpired ((t0 + e) % ulongMod) (startInputPeriod t0 s) = true ↔ 6000 ≤ e) := by
  have hst : (startInputPeriod t0 s).inputStartTime = t0 % ulongMod := rfl
  have h1 : ulongSub ((t0 + e) % ulongMod) (t0 % ulongMod) = e := by
    simp only [ulongSub, ulongMod] at he ⊢
    omega
  have h2 : ulongSub (t0 + e) (t0 % ulongMod) = e := by
    simp only [ulongSub, ulongMod] at he ⊢
    omega
  refine ⟨hst, by rw [hst]; exact h1, by rw [hst]; exact h2, ?_, ?_⟩
  · simp only [windowExpired, hst, h2, decide_eq_true_eq, ge_iff_le]
  · simp only [windowExpired, hst, h1, decide_eq_true_eq, ge_iff_le]

/-- Worked example for C19: a window opened 296 ms before the counter wraps expires
exactly 6000 ms later, when `millis()` reads 5704. -/
theorem C19_clock_wraparound_witness :
    6000 < ulongMod ∧ (4294967000 + 6000) % ulongMod = 5704 ∧
    (windowExpired 5704 (startInputPeriod 4294967000 (initial (fun _ => Level.LOW))) = true ↔
      6000 ≤ 6000) ∧
    (windowExpired 5703 (startInputPeriod 4294967000 (initial (fun _ => Level.LOW))) = true ↔
      6000 ≤ 5999) :=
  ⟨by decide, by decide,
    (C19_clock_wraparound 4294967000 6000 (initial (fun _ => Level.LOW)) (by decide)).2.2.2.2,
    (C19_clock_wraparound 4294967000 5999 (initial (fun _ => Level.LOW)) (by decide)).2.2.2.2⟩

/-! ### Polling: what `checkButtons` appends -/

theorem isInQueueLoop_some (floor : Int) (s : State) :
    ∀ (n fuel i : Nat) (b : Bool), s.queueSize - i = n →
      isInQueueLoop floor s fuel i = some b → b = decide (floor ∈ s.queue.drop i) := by
  intro n
  induction n with
  | zero =>
    intro fuel i b hn h
    have hnot : ¬ i < s.queueSize := by omega
    have hdrop : s.queue.drop i = [] := by
      apply List.drop_eq_nil_of_le
      simp only [State.queue, List.length_take]
      omega
    unfold isInQueueLoop at h
    rw [if_neg hnot] at h
    cases h
    simp [hdrop]
  | succ n ih =>
    intro fuel i b hn h
    have hlt : i < s.queueSize := by omega
    unfold isInQueueLoop at h
    rw [if_pos hlt] at h
    cases fuel with
    | zero => cases h
    | succ f =>
      simp only at h
      cases hg : s.floorQueue[i]? with
      | none => rw [hg] at h; cases h
      | some v =>
        rw [hg] at h
        simp only at h
        have hil : i < s.floorQueue.length := by
          by_contra hge
          rw [List.getElem?_eq_none (by omega)] at hg
          cases hg
        have hv : s.floorQueue[i] = v := by
          rw [List.getElem?_eq_getElem hil] at hg
          exact Option.some.inj hg
        have hiq : i < s.queue.length := by
          simp only [State.queue, List.length_take]
          omega
        have hget : s.queue[i] = v := by
          rw [← hv]
          simp [State.queue]
        have hdrop : s.queue.drop i = v :: s.queue.drop (i + 1) := by
          rw [← hget]; exact List.drop_eq_getElem_cons hiq
        by_cases hvf : v = floor
        · rw [if_pos hvf] at h
          cases h
          simp [hdrop, hvf]
        · rw [if_neg hvf] at h
          have hb := ih f (i + 1) b (by omega) h
          rw [hb, hdrop]
          have hvf' : ¬ floor = v := fun hc => hvf hc.symm
          simp [hvf']

theorem isInQueue_some (floor : Int) (s : State) (b : Bool) (h : isInQueue floor s = some b) :
    b = decide (floor ∈ s.queue) := by
  have := isInQueueLoop_some floor s s.queueSize s.queueSize 0 b (by omega) h
  simpa using this

/-- Whenever one iteration of the `checkButtons` loop returns, it has either appended floor
`i + 1` (button pressed, floor not pending, room left) or done nothing. -/
theorem checkButton_some (read : Nat → Level) (i : Nat) (s s' : State)
    (h : checkButton read i s = some s') :
    (s' = enqueue ((i : Int) + 1) s ∧ s.queueSize < s.floorQueue.length ∧
        read (buttonPins.getD i 0) = Level.LOW ∧ ((i : Int) + 1) ∉ s.queue ∧
        s.queueSize < 5) ∨
      (s' = s ∧ ¬ (read (buttonPins.getD i 0) = Level.LOW ∧ ((i : Int) + 1) ∉ s.queue ∧
        s.queueSize < 5)) := by
  unfold checkButton at h
  by_cases hp : read (buttonPins.getD i 0) = Level.LOW
  · rw [if_pos hp] at h
    cases hq : isInQueue ((i : Int) + 1) s with
    | none => rw [hq] at h; cases h
    | some b =>
      rw [hq] at h
      have hb := isInQueue_some _ s b hq
      by_cases hm : ((i : Int) + 1) ∈ s.queue
      · have hbt : b = true := by rw [hb]; simp [hm]
        subst hbt
        simp only [Bool.not_true, Bool.false_and, Bool.false_eq_true, if_false] at h
        cases h
        exact Or.inr ⟨rfl, fun hc => hc.2.1 hm⟩
      · have hbf : b = false := by rw [hb]; simp [hm]
        subst hbf
        by_cases hs : s.queueSize < 5
        · simp only [hs, Bool.not_false, decide_True, Bool.and_self, if_true] at h
          unfold storeQueue at h
          by_cases hl : s.queueSize < s.floorQueue.length
          · simp only [hl, if_true] at h
            cases h
            exact Or.inl ⟨rfl, hl, hp, hm, hs⟩
          · simp only [hl, if_false] at h
            cases h
        · simp only [hs, decide_False, Bool.and_false, Bool.false_eq_true, if_false] at h
          cases h
          exact Or.inr ⟨rfl, fun hc => hs hc.2.2⟩
  · rw [if_neg hp] at h
    cases h
    exact Or.inr ⟨rfl, fun hc => hp hc.1⟩

theorem newPresses_congr (read : Nat → Level) (q : List Int) (v : Int) (is : List Nat)
    (hv : ∀ i ∈ is, ((i : Int) + 1) ≠ v) :
    newPresses read (q ++ [v]) is = newPresses read q is := by
  unfold newPresses
  apply List.filter_congr
  intro i hi
  have := hv i hi
  simp [this]

/-- The closed form of a poll: the pending entries followed by the newly pressed floors in
scan order, cut off at capacity 5. -/
theorem checkButtonsFrom_some (read : Nat → Level) (is : List Nat) (hnd : is.Nodup) :
    ∀ (s s' : State), checkButtonsFrom read is s = some s' →
      s'.queue = s.queue ++
          ((newPresses read s.queue is).take (5 - s.queueSize)).map
            (fun (i : Nat) => (i : Int) + 1) ∧
        s'.queueSize = s.queueSize +
          ((newPresses read s.queue is).take (5 - s.queueSize)).length := by
  induction is with
  | nil =>
    intro s s' h
    simp only [checkButtonsFrom, Option.some.injEq] at h
    subst h
    simp [newPresses]
  | cons i is ih =>
    intro s s' h
    have hi : i ∉ is := (List.nodup_cons.mp hnd).1
    have hnd' : is.Nodup := (List.nodup_cons.mp hnd).2
    unfold checkButtonsFrom at h
    cases h1 : checkButton read i s with
    | none => rw [h1] at h; cases h
    | some s1 =>
      rw [h1] at h
      simp only at h
      obtain ⟨hq', hs'⟩ := ih hnd' s1 s' h
      rcases checkButton_some read i s s1 h1 with ⟨hs1, hl, hp, hm, hs⟩ | ⟨hs1, hno⟩
      · have hqe := queue_enqueue ((i : Int) + 1) s hl
        have hsz : (enqueue ((i : Int) + 1) s).queueSize = s.queueSize + 1 := rfl
        have hcong : newPresses read (s.queue ++ [(i : Int) + 1]) is =
            newPresses read s.queue is := by
          apply newPresses_congr
          intro j hj hc
          have : j = i := by omega
          exact hi (this ▸ hj)
        have hhead : newPresses read s.queue (i :: is) = i :: newPresses read s.queue is := by
          unfold newPresses
          rw [List.filter_cons_of_pos]
          simp only [Bool.and_eq_true, decide_eq_true_eq]
          exact ⟨hp, hm⟩
        have h5 : 5 - s.queueSize = (5 - (s.queueSize + 1)) + 1 := by omega
        rw [hs1, hqe, hsz, hcong] at hq'
        rw [hs1, hsz, hqe, hcong] at hs'
        rw [hhead, h5, List.take_succ_cons]
        constructor
        · rw [hq']; simp
        · rw [hs']; simp; omega
      · rw [hs1] at hq' hs'
        by_cases hkeep : read (buttonPins.getD i 0) = Level.LOW ∧ ((i : Int) + 1) ∉ s.queue
        · have hfull : ¬ s.queueSize < 5 := fun hc => hno ⟨hkeep.1, hkeep.2, hc⟩
          have h0 : 5 - s.queueSize = 0 := by omega
          rw [h0] at hq' hs'
          rw [h0]
          exact ⟨by simpa using hq', by simpa using hs'⟩
        · have hhead : newPresses read s.queue (i :: is) = newPresses read s.queue is := by
            unfold newPresses
            rw [List.filter_cons_of_neg]
            simp only [Bool.and_eq_true, decide_eq_true_eq]
            exact hkeep
          rw [hhead]
          exact ⟨hq', hs'⟩

/-- C14 (poll append order): for every state and button reading, whenever `checkButtons`
returns (it does on every five-cell queue with `queueSize ≤ 5`), the pending entries
afterwards are the old pending entries `floorQueue[0 .. oldSize)`, unchanged, followed by
the floors `i + 1` of the buttons `i` that read `LOW` and were not already pending, in
scan order `i = 0, 1, 2, 3, 4` (ascending floor order), cut off after `5 - oldSize` of them;
and nothing but `floorQueue` and `queueSize` has changed (no pin write, no trace event,
`currentFloor` and the window variables as before). -/
theorem C14_poll_append_order (read : Nat → Level) (s : State) :
    (s.floorQueue.length = 5 → s.queueSize ≤ 5 → ∃ s', checkButtons read s = some s') ∧
    ∀ s', checkButtons read s = some s' →
      s'.floorQueue.take s'.queueSize =
          s.floorQueue.take s.queueSize ++
            ((newPresses read (s.floorQueue.take s.queueSize) (List.range 5)).take
              (5 - s.queueSize)).map (fun (i : Nat) => (i : Int) + 1) ∧
        s'.queueSize = s.queueSize +
          ((newPresses read (s.floorQueue.take s.queueSize) (List.range 5)).take
            (5 - s.queueSize)).length ∧
        s' = { s with floorQueue := s'.floorQueue, queueSize := s'.queueSize } ∧
        s'.pins = s.pins ∧ s'.trace = s.trace ∧ s'.currentFloor = s.currentFloor ∧
        s'.inputStartTime = s.inputStartTime ∧ s'.inputInProgress = s.inputInProgress := by
  constructor
  · intro hlen hq
    obtain ⟨s', h, _⟩ := checkButtonsFrom_bounds read (List.range 5) s hlen hq
    exact ⟨s', h⟩
  · intro s' h
    obtain ⟨h1, h2⟩ := checkButtonsFrom_some read (List.range 5) (List.nodup_range 5) s s' h
    have hfr := checkButtons_queueOnly read s s' h
    refine ⟨h1, h2, hfr, ?_, ?_, ?_, ?_, ?_⟩ <;> rw [hfr]

/-- Worked example for C14: with `[3]` pending and buttons 1..5 all pressed, the poll
appends 1, 2, 4, 5 in that order. -/
theorem C14_poll_append_order_witness :
    ∃ s', checkButtons (fun _ => Level.LOW) (exampleState [3, 0, 0, 0, 0] 1 1 true) = some s' ∧
      s'.floorQueue.take s'.queueSize = [3, 1, 2, 4, 5] ∧ s'.queueSize = 5 := by
  obtain ⟨hdef, hres⟩ :=
    C14_poll_append_order (fun _ => Level.LOW) (exampleState [3, 0, 0, 0, 0] 1 1 true)
  obtain ⟨s', hs'⟩ := hdef rfl (by decide)
  obtain ⟨h1, h2, _⟩ := hres s' hs'
  exact ⟨s', hs', h1, h2⟩

theorem checkButtonsFrom_noop (read : Nat → Level) (is : List Nat) (s : State)
    (hlen : s.floorQueue.length = 5) (hq : s.queueSize ≤ 5)
    (hno : ∀ i ∈ is, ¬ (read (buttonPins.getD i 0) = Level.LOW ∧ ((i : Int) + 1) ∉ s.queue ∧
      s.queueSize < 5)) :
    checkButtonsFrom read is s = some s := by
  induction is with
  | nil => rfl
  | cons i is ih =>
    have h1 := checkButton_eq read i s hlen hq
    rw [if_neg (hno i (List.mem_cons_self _ _))] at h1
    unfold checkButtonsFrom
    rw [h1]
    exact ih (fun j hj => hno j (List.mem_cons_of_mem _ hj))

/-- After a poll every pressed floor is pending or the queue is full. -/
theorem checkButtons_saturated (read : Nat → Level) (s s1 : State) (hq : s.queueSize ≤ 5)
    (h : checkButtons read s = some s1) (i : Nat) (hi : i < 5) :
    ¬ (read (buttonPins.getD i 0) = Level.LOW ∧ ((i : Int) + 1) ∉ s1.queue ∧
      s1.queueSize < 5) := by
  rintro ⟨hp, hm, hs⟩
  obtain ⟨h1, h2⟩ := checkButtonsFrom_some read (List.range 5) (List.nodup_range 5) s s1 h
  rw [h1] at hm
  have hm1 : ((i : Int) + 1) ∉ s.queue := fun hc => hm (List.mem_append_left _ hc)
  have hiF : i ∈ newPresses read s.queue (List.range 5) := by
    unfold newPresses
    rw [List.mem_filter]
    refine ⟨List.mem_range.mpr hi, ?_⟩
    simp only [Bool.and_eq_true, decide_eq_true_eq]
    exact ⟨hp, hm1⟩
  have hnot : i ∉ (newPresses read s.queue (List.range 5)).take (5 - s.queueSize) := by
    intro hc
    exact hm (List.mem_append_right _
      (List.mem_map.mpr ⟨i, hc, rfl⟩))
  have hlt : 5 - s.queueSize < (newPresses read s.queue (List.range 5)).length := by
    by_contra hge
    rw [List.take_of_length_le (by omega)] at hnot
    exact hnot hiF
  rw [List.length_take, Nat.min_eq_left (by omega)] at h2
  omega

/-- C15 (held button is idempotent): on every five-cell queue with `queueSize ≤ 5` and for
every button reading `r`, polling a second time with the same reading changes nothing:
`checkButtons(checkButtons(s, r), r) = checkButtons(s, r)`. -/
theorem C15_held_button_idempotent (read : Nat → Level) (s : State)
    (hlen : s.floorQueue.length = 5) (hq : s.queueSize ≤ 5) :
    ∃ s1, checkButtons read s = some s1 ∧ checkButtons read s1 = some s1 ∧
      (checkButtons read s).bind (checkButtons read) = checkButtons read s := by
  obtain ⟨s1, h1, hlen1, hq1, _⟩ := checkButtonsFrom_bounds read (List.range 5) s hlen hq
  have h2 : checkButtons read s1 = some s1 :=
    checkButtonsFrom_noop read (List.range 5) s1 hlen1 hq1
      (fun i hi => checkButtons_saturated read s s1 hq h1 i (List.mem_range.mp hi))
  refine ⟨s1, h1, h2, ?_⟩
  have h1' : checkButtons read s = some s1 := h1
  rw [h1', Option.some_bind, h2]

/-- Worked example for C15: buttons 5 and 1 held, queue `[2, 3, 4]`. -/
theorem C15_held_button_idempotent_witness :
    (exampleState [2, 3, 4, 0, 0] 3 1 true).floorQueue.length = 5 ∧
    (exampleState [2, 3, 4, 0, 0] 3 1 true).queueSize ≤ 5 ∧
    ∃ s1, checkButtons (fun pin => if pin = 2 ∨ pin = 6 then Level.LOW else Level.HIGH)
        (exampleState [2, 3, 4, 0, 0] 3 1 true) = some s1 ∧
      checkButtons (fun pin => if pin = 2 ∨ pin = 6 then Level.LOW else Level.HIGH) s1 =
        some s1 ∧
      (checkButtons (fun pin => if pin = 2 ∨ pin = 6 then Level.LOW else Level.HIGH)
        (exampleState [2, 3, 4, 0, 0] 3 1 true)).bind
        (checkButtons (fun pin => if pin = 2 ∨ pin = 6 then Level.LOW else Level.HIGH)) =
      checkButtons (fun pin => if pin = 2 ∨ pin = 6 then Level.LOW else Level.HIGH)
        (exampleState [2, 3, 4, 0, 0] 3 1 true) :=
  ⟨rfl, by decide, C15_held_button_idempotent _ _ rfl (by decide)⟩

/-! ### Reachable states -/

theorem displayedFloors_append (a b : List Event) :
    displayedFloors (a ++ b) = displayedFloors a ++ displayedFloors b := by
  induction a with
  | nil => rfl
  | cons e a ih => cases e <;> simp [displayedFloors, ih]

theorem displayedFloors_filter (evs : List Event) :
    displayedFloors (evs.filter Event.isStep) = displayedFloors evs := by
  induction evs with
  | nil => rfl
  | cons e evs ih => cases e <;> simp [List.filter, Event.isStep, displayedFloors, ih]

theorem displayedFloors_flatMap_stepSkeleton (fs : List Int) :
    ∀ f ∈ displayedFloors (fs.flatMap stepSkeleton), f ∈ fs := by
  induction fs with
  | nil => intro f hf; simp [displayedFloors] at hf
  | cons g fs ih =>
    intro f hf
    rw [List.flatMap_cons, displayedFloors_append] at hf
    rcases List.mem_append.mp hf with h | h
    · have : f = g := by simpa [stepSkeleton, displayedFloors] using h
      rw [this]; exact List.mem_cons_self _ _
    · exact List.mem_cons_of_mem _ (ih f h)

theorem mem_countUp (n : Nat) : ∀ (i f : Int), f ∈ countUp i n → i ≤ f ∧ f < i + n := by
  induction n with
  | zero => intro i f hf; simp [countUp] at hf
  | succ n ih =>
    intro i f hf
    simp only [countUp, List.mem_cons] at hf
    rcases hf with rfl | hf
    · omega
    · have := ih (i + 1) f hf
      omega

theorem mem_countDown (n : Nat) : ∀ (i f : Int), f ∈ countDown i n → f ≤ i ∧ i < f + n := by
  induction n with
  | zero => intro i f hf; simp [countDown] at hf
  | succ n ih =>
    intro i f hf
    simp only [countDown, List.mem_cons] at hf
    rcases hf with rfl | hf
    · omega
    · have := ih (i - 1) f hf
      omega

/-- Every floor passed by a move between floors of `1..5` is a floor of `1..5`. -/
theorem mem_floorsBetween (A B f : Int) (hA : 1 ≤ A ∧ A ≤ 5) (hB : 1 ≤ B ∧ B ≤ 5)
    (hf : f ∈ floorsBetween A B) : 1 ≤ f ∧ f ≤ 5 := by
  unfold floorsBetween at hf
  split at hf
  · have := mem_countUp _ _ _ hf
    omega
  · have := mem_countDown _ _ _ hf
    omega

theorem displayedFloors_moveEvents (A B : Int) (hA : 1 ≤ A ∧ A ≤ 5) (hB : 1 ≤ B ∧ B ≤ 5) :
    ∀ f ∈ displayedFloors (moveEvents A B), 1 ≤ f ∧ f ≤ 5 := by
  intro f hf
  by_cases h : B = A
  · simp [moveEvents, h, displayedFloors] at hf
  · rw [← displayedFloors_filter, filter_isStep_moveEvents A B h] at hf
    have hsplit : Event.callMoveToFloor B :: ((floorsBetween A B).flatMap stepSkeleton ++
        [Event.delay 3000]) = [Event.callMoveToFloor B] ++
        ((floorsBetween A B).flatMap stepSkeleton ++ [Event.delay 3000]) := rfl
    rw [hsplit, displayedFloors_append, displayedFloors_append] at hf
    rcases List.mem_append.mp hf with h1 | h1
    · simp [displayedFloors] at h1
    · rcases List.mem_append.mp h1 with h2 | h2
      · exact mem_floorsBetween A B f hA hB (displayedFloors_flatMap_stepSkeleton _ f h2)
      · simp [displayedFloors] at h2

theorem displayedFloors_tripEvents (ts : List Int) :
    ∀ (cur : Int), (1 ≤ cur ∧ cur ≤ 5) → (∀ t ∈ ts, 1 ≤ t ∧ t ≤ 5) →
      ∀ f ∈ displayedFloors (tripEvents cur ts), 1 ≤ f ∧ f ≤ 5 := by
  induction ts with
  | nil => intro cur _ _ f hf; simp [tripEvents, displayedFloors] at hf
  | cons t ts ih =>
    intro cur hcur hts f hf
    have ht := hts t (List.mem_cons_self _ _)
    rw [tripEvents, displayedFloors_append] at hf
    rcases List.mem_append.mp hf with h | h
    · exact displayedFloors_moveEvents cur t hcur ht f h
    · exact ih t ht (fun u hu => hts u (List.mem_cons_of_mem _ hu)) f h

theorem displayedFloors_setupEvents : displayedFloors setupEvents = [1, 1] := by
  have h : displayedFloors setupEvents = displayedFloors (setupEvents.filter Event.isStep) :=
    (displayedFloors_filter _).symm
  rw [h]
  rfl

theorem pollState_queueInv (nowStart : Nat) (s : State) (h : QueueInv s) :
    QueueInv (pollState nowStart s) := by
  unfold pollState
  cases hact : s.inputInProgress
  · exact h
  · exact h

/-- The three ways in which an iteration of `loop()` can end on a well-formed state with
pairwise distinct pending entries: poll only; poll and close the window on an empty
queue; poll, close the window and dispatch. -/
theorem loop_cases (nowStart nowCheck : Nat) (read : Nat → Level) (s : State)
    (hwf : WellFormed s) (hinv : QueueInv s) :
    ∃ s2 s', checkButtons read (pollState nowStart s) = some s2 ∧ WellFormed s2 ∧
      QueueInv s2 ∧ QueueOnly (pollState nowStart s) s2 ∧
      loop nowStart nowCheck read s = some s' ∧
      (s' = s2 ∨ s' = { s2 with inputInProgress := false } ∨
        s' = { s2.out (Event.callProcessQueue :: tripEvents s2.currentFloor s2.queue) with
          currentFloor := lastFloor s2.currentFloor s2.queue
          queueSize := 0
          inputInProgress := false }) := by
  obtain ⟨s2, h2, hwf2, hfr, hloop⟩ := loop_step nowStart nowCheck read s hwf
  obtain ⟨s2', h2', hinv2, _, _⟩ :=
    checkButtons_inv read (pollState nowStart s) (pollState_queueInv nowStart s hinv)
  have hs2 : s2' = s2 := by
    rw [h2] at h2'
    exact (Option.some.inj h2').symm
  subst hs2
  by_cases hexp : 6000 ≤ ulongSub nowCheck (pollState nowStart s).inputStartTime
  · rw [if_pos hexp] at hloop
    by_cases hpos : 0 < s2'.queueSize
    · rw [if_pos hpos] at hloop
      exact ⟨s2', _, h2, hwf2, hinv2, hfr, hloop, Or.inr (Or.inr rfl)⟩
    · rw [if_neg hpos] at hloop
      exact ⟨s2', _, h2, hwf2, hinv2, hfr, hloop, Or.inr (Or.inl rfl)⟩
  · rw [if_neg hexp] at hloop
    exact ⟨s2', _, h2, hwf2, hinv2, hfr, hloop, Or.inl rfl⟩

theorem displayedFloors_append_startMarker (evs : List Event) (b : Bool) :
    displayedFloors (evs ++ (if b then [] else [Event.callStartInputPeriod])) =
      displayedFloors evs := by
  cases b <;> simp [displayedFloors_append, displayedFloors]

/-- Invariants of `loop()`: well-formedness, pairwise distinct pending entries, and only
floors of `1..5` ever passed to `displayFloor` and `lightFloorLed`; the trace only grows. -/
theorem loop_invariants (nowStart nowCheck : Nat) (read : Nat → Level) (s : State)
    (hwf : WellFormed s) (hinv : QueueInv s)
    (htr : ∀ f ∈ displayedFloors s.trace, 1 ≤ f ∧ f ≤ 5) :
    ∃ s', loop nowStart nowCheck read s = some s' ∧ WellFormed s' ∧ QueueInv s' ∧
      (∀ f ∈ displayedFloors s'.trace, 1 ≤ f ∧ f ≤ 5) ∧ s.trace <+: s'.trace := by
  obtain ⟨s2, s', _, hwf2, hinv2, hfr, hloop, hcases⟩ :=
    loop_cases nowStart nowCheck read s hwf hinv
  have h2tr : s2.trace =
      s.trace ++ (if s.inputInProgress then [] else [Event.callStartInputPeriod]) := by
    rw [hfr]; exact pollState_trace nowStart s
  have htr2 : ∀ f ∈ displayedFloors s2.trace, 1 ≤ f ∧ f ≤ 5 := by
    rw [h2tr, displayedFloors_append_startMarker]
    exact htr
  have hpre2 : s.trace <+: s2.trace := by
    rw [h2tr]; exact List.prefix_append _ _
  obtain ⟨hlen, hq, hr, hcur⟩ := hwf2
  rcases hcases with rfl | rfl | rfl
  · exact ⟨_, hloop, ⟨hlen, hq, hr, hcur⟩, hinv2, htr2, hpre2⟩
  · exact ⟨_, hloop, ⟨hlen, hq, hr, hcur⟩, hinv2, htr2, hpre2⟩
  · refine ⟨_, hloop, ⟨hlen, Nat.zero_le _, ?_, lastFloor_range _ _ hcur hr⟩,
      ⟨hlen, Nat.zero_le _, ?_, ?_⟩, ?_, ?_⟩
    · intro f hf
      simp [State.queue] at hf
    · simp [State.queue]
    · intro f hf
      simp [State.queue] at hf
    · intro f hf
      have hf' : f ∈ displayedFloors
          (s2.trace ++ Event.callProcessQueue :: tripEvents s2.currentFloor s2.queue) := hf
      rw [displayedFloors_append] at hf'
      rcases List.mem_append.mp hf' with h | h
      · exact htr2 f h
      · exact displayedFloors_tripEvents _ _ hcur hr f h
    · exact hpre2.trans (List.prefix_append _ _)

theorem runLoops_invariants (inputs : List (Nat × Nat × (Nat → Level))) :
    ∀ (s : State), WellFormed s → QueueInv s →
      (∀ f ∈ displayedFloors s.trace, 1 ≤ f ∧ f ≤ 5) →
      ∃ s', runLoops inputs s = some s' ∧ WellFormed s' ∧ QueueInv s' ∧
        (∀ f ∈ displayedFloors s'.trace, 1 ≤ f ∧ f ≤ 5) ∧ s.trace <+: s'.trace := by
  induction inputs with
  | nil => intro s hwf hinv htr; exact ⟨s, rfl, hwf, hinv, htr, List.prefix_refl _⟩
  | cons x rest ih =>
    intro s hwf hinv htr
    obtain ⟨a, b, r⟩ := x
    obtain ⟨s1, h1, hwf1, hinv1, htr1, hpre1⟩ := loop_invariants a b r s hwf hinv htr
    obtain ⟨s', h', hwf', hinv', htr', hpre'⟩ := ih s1 hwf1 hinv1 htr1
    exact ⟨s', by simp [runLoops, h1, h'], hwf', hinv', htr', hpre1.trans hpre'⟩

theorem queueInv_boot (pins0 : Nat → Level) : QueueInv ((initial pins0).out setupEvents) :=
  queueInv_of_empty _ rfl rfl

/-- Every state reached from the initial state by `setup()` and iterations of `loop()`
satisfies the invariants, and contains the whole trace of the run. -/
theorem reachable_invariants (pins0 : Nat → Level)
    (inputs : List (Nat × Nat × (Nat → Level))) :
    ∃ s0 s, setup (initial pins0) = some s0 ∧ runLoops inputs s0 = some s ∧
      WellFormed s ∧ QueueInv s ∧ (∀ f ∈ displayedFloors s.trace, 1 ≤ f ∧ f ≤ 5) ∧
      s0.trace <+: s.trace := by
  obtain ⟨s, hrun, hwf, hinv, htr, hpre⟩ :=
    runLoops_invariants inputs _ (wellFormed_boot pins0) (queueInv_boot pins0)
      (by
        intro f hf
        have hf' : f ∈ displayedFloors setupEvents := hf
        rw [displayedFloors_setupEvents] at hf'
        simp at hf'
        omega)
  exact ⟨_, s, setup_initial pins0, hrun, hwf, hinv, htr, hpre⟩

/-- C12 (valid floors only): in every run from the initial state (`setup()` followed by any
number of `loop()` iterations with arbitrary button readings and clock values) the run is
defined, and every argument `f` passed to `displayFloor` or `lightFloorLed` so far, the
calls of `setup()` included, lies in `1..5`, so that `f - 1` lies in `0..4` and
`floorNumbers[f - 1]` is a row of the table; likewise `currentFloor` and every pending
entry `floorQueue[0 .. queueSize)` lie in `1..5`. -/
theorem C12_valid_floors_only (pins0 : Nat → Level)
    (inputs : List (Nat × Nat × (Nat → Level))) :
    ∃ s0 s, setup (initial pins0) = some s0 ∧ runLoops inputs s0 = some s ∧
      s0.trace <+: s.trace ∧
      (∀ f ∈ displayedFloors s.trace,
        (1 ≤ f ∧ f ≤ 5) ∧ (0 ≤ f - 1 ∧ f - 1 ≤ 4) ∧
          ∃ row, floorNumbers[(f - 1).toNat]? = some row) ∧
      (1 ≤ s.currentFloor ∧ s.currentFloor ≤ 5) ∧
      ∀ f ∈ s.floorQueue.take s.queueSize, 1 ≤ f ∧ f ≤ 5 := by
  obtain ⟨s0, s, h0, hrun, hwf, _, htr, hpre⟩ := reachable_invariants pins0 inputs
  refine ⟨s0, s, h0, hrun, hpre, ?_, hwf.2.2.2, hwf.2.2.1⟩
  intro f hf
  have hr := htr f hf
  refine ⟨hr, by omega, ?_⟩
  have hlt : (f - 1).toNat < floorNumbers.length := by
    have : floorNumbers.length = 5 := rfl
    omega
  exact ⟨floorNumbers[(f - 1).toNat], List.getElem?_eq_getElem hlt⟩

/-- C17 (no press is ever lost): let `s` be any state reached from the initial state by
`setup()` and iterations of `loop()`, and consider the poll of the next iteration.  For
each button `i`, in the state `sI` in which `checkButtons` examines it (buttons `0..i-1`
already scanned), if the button reads `LOW` and floor `i + 1` is not pending then
`queueSize < 5`, so the floor is appended: the guard `queueSize < 5` never drops a press.
After the poll every floor whose button read `LOW` is pending. -/
theorem C17_no_press_lost (pins0 : Nat → Level)
    (inputs : List (Nat × Nat × (Nat → Level))) :
    ∃ s0 s, setup (initial pins0) = some s0 ∧ runLoops inputs s0 = some s ∧
      ∀ (nowStart : Nat) (read : Nat → Level),
        (∀ i, i < 5 →
          ∃ sI, checkButtonsFrom read (List.range i) (pollState nowStart s) = some sI ∧
            (read (buttonPins.getD i 0) = Level.LOW → ((i : Int) + 1) ∉ sI.queue →
              sI.queueSize < 5) ∧
            checkButton read i sI =
              some (if read (buttonPins.getD i 0) = Level.LOW ∧ ((i : Int) + 1) ∉ sI.queue
                then enqueue ((i : Int) + 1) sI else sI)) ∧
        ∃ s', checkButtons read (pollState nowStart s) = some s' ∧
          ∀ i, i < 5 → read (buttonPins.getD i 0) = Level.LOW →
            ((i : Int) + 1) ∈ s'.floorQueue.take s'.queueSize := by
  obtain ⟨s0, s, h0, hrun, _, hinv, _, _⟩ := reachable_invariants pins0 inputs
  refine ⟨s0, s, h0, hrun, ?_⟩
  intro nowStart read
  have hps := pollState_queueInv nowStart s hinv
  constructor
  · intro i hi
    obtain ⟨sI, hI, hinvI, _, _⟩ := checkButtonsFrom_inv read (List.range i)
      (fun j hj => by have := List.mem_range.mp hj; omega) (pollState nowStart s) hps
    obtain ⟨hlen, hq, hnd, hr⟩ := hinvI
    have hroom : read (buttonPins.getD i 0) = Level.LOW → ((i : Int) + 1) ∉ sI.queue →
        sI.queueSize < 5 := by
      intro _ hm
      by_contra hfull
      have hl : sI.queue.length = 5 := by
        rw [queue_length sI (by omega)]; omega
      exact hm (mem_of_full sI.queue hnd hr hl _ (by omega))
    refine ⟨sI, hI, hroom, ?_⟩
    rw [checkButton_eq read i sI hlen hq]
    by_cases hc : read (buttonPins.getD i 0) = Level.LOW ∧ ((i : Int) + 1) ∉ sI.queue
    · rw [if_pos hc, if_pos ⟨hc.1, hc.2, hroom hc.1 hc.2⟩]
    · rw [if_neg hc, if_neg (fun h => hc ⟨h.1, h.2.1⟩)]
  · obtain ⟨s', h', _, _, hmem⟩ := checkButtons_inv read (pollState nowStart s) hps
    exact ⟨s', h', hmem⟩

/-! ### A whole dispatch pass -/

/-- The level of the direction LED pins after a pass whose only move is a no-op is the
level before it: with start floor 2, the one-entry queue `[2]` and both pins `HIGH`
beforehand, they are still `HIGH` after `processQueue`.  Likewise in a run from initial pin
levels `HIGH`: `setup()` never writes the direction LED pins, and a pass serving only the
current floor 1 leaves them as they were. -/
theorem processQueue_noop_keeps_direction_levels :
    ((exampleStateHigh [2, 0, 0, 0, 0] 1 2 false).floorQueue.take
        (exampleStateHigh [2, 0, 0, 0, 0] 1 2 false).queueSize = [2] ∧
      (exampleStateHigh [2, 0, 0, 0, 0] 1 2 false).currentFloor = 2 ∧
      ∃ s', processQueue (exampleStateHigh [2, 0, 0, 0, 0] 1 2 false) = some s' ∧
        s'.currentFloor = 2 ∧ s'.queueSize = 0 ∧
        s'.pins upLedPin = Level.HIGH ∧ s'.pins downLedPin = Level.HIGH ∧
        ¬ (s'.pins upLedPin = Level.LOW ∧ s'.pins downLedPin = Level.LOW)) ∧
    ∃ s0 s, setup (initial (fun _ => Level.HIGH)) = some s0 ∧
      runLoops [(0, 6000, onlyButton 0)] s0 = some s ∧
      moveTargets s.trace = [1] ∧ s.currentFloor = 1 ∧ s.queueSize = 0 ∧
      s.pins upLedPin = Level.HIGH ∧ s.pins downLedPin = Level.HIGH := by
  refine ⟨⟨rfl, rfl, _, rfl, rfl, rfl, rfl, rfl, by decide⟩, _, _, rfl, rfl, ?_, rfl, rfl,
    rfl, rfl⟩
  decide

theorem moveUpLoopStates_some (target : Int) :
    ∀ (n fuel : Nat) (i : Int) (s : State) (mids : List State),
      (target + 1 - i).toNat = n → moveUpLoopStates target fuel i s = some mids →
      mids.length = n ∧ (∀ m ∈ mids, m.currentFloor = s.currentFloor) ∧
        moveUpLoop target fuel i s = some (mids.getLastD s) := by
  intro n
  induction n with
  | zero =>
    intro fuel i s mids hn h
    have hgt : ¬ i ≤ target := by omega
    unfold moveUpLoopStates at h
    rw [if_neg hgt] at h
    cases h
    refine ⟨rfl, by simp, ?_⟩
    unfold moveUpLoop
    rw [if_neg hgt]
    rfl
  | succ n ih =>
    intro fuel i s mids hn h
    have hle : i ≤ target := by omega
    unfold moveUpLoopStates at h
    rw [if_pos hle] at h
    cases fuel with
    | zero => cases h
    | succ f =>
      simp only at h
      cases hd : displayFloor i (delay 1000 s) with
      | none => rw [hd] at h; cases h
      | some s1 =>
        rw [hd] at h
        simp only at h
        cases hrec : moveUpLoopStates target f (i + 1) (lightFloorLed i s1) with
        | none => rw [hrec] at h; cases h
        | some rest =>
          rw [hrec] at h
          cases h
          obtain ⟨hlen, hcur, hlast⟩ := ih f (i + 1) _ rest (by omega) hrec
          obtain ⟨_, hs1⟩ := displayFloor_some i _ s1 hd
          have hc1 : (lightFloorLed i s1).currentFloor = s.currentFloor := by
            rw [lightFloorLed_eq_out, hs1, delay_eq_out]
            rfl
          refine ⟨by simp [hlen], ?_, ?_⟩
          · intro m hm
            rcases List.mem_cons.mp hm with rfl | hm
            · exact hc1
            · rw [hcur m hm, hc1]
          · unfold moveUpLoop
            rw [if_pos hle]
            simp only [hd]
            rw [hlast]
            cases rest <;> rfl

theorem moveDownLoopStates_some (target : Int) :
    ∀ (n fuel : Nat) (i : Int) (s : State) (mids : List State),
      (i + 1 - target).toNat = n → moveDownLoopStates target fuel i s = some mids →
      mids.length = n ∧ (∀ m ∈ mids, m.currentFloor = s.currentFloor) ∧
        moveDownLoop target fuel i s = some (mids.getLastD s) := by
  intro n
  induction n with
  | zero =>
    intro fuel i s mids hn h
    have hgt : ¬ i ≥ target := by omega
    unfold moveDownLoopStates at h
    rw [if_neg hgt] at h
    cases h
    refine ⟨rfl, by simp, ?_⟩
    unfold moveDownLoop
    rw [if_neg hgt]
    rfl
  | succ n ih =>
    intro fuel i s mids hn h
    have hle : i ≥ target := by omega
    unfold moveDownLoopStates at h
    rw [if_pos hle] at h
    cases fuel with
    | zero => cases h
    | succ f =>
      simp only at h
      cases hd : displayFloor i (delay 1000 s) with
      | none => rw [hd] at h; cases h
      | some s1 =>
        rw [hd] at h
        simp only at h
        cases hrec : moveDownLoopStates target f (i - 1) (lightFloorLed i s1) with
        | none => rw [hrec] at h; cases h
        | some rest =>
          rw [hrec] at h
          cases h
          obtain ⟨hlen, hcur, hlast⟩ := ih f (i - 1) _ rest (by omega) hrec
          obtain ⟨_, hs1⟩ := displayFloor_some i _ s1 hd
          have hc1 : (lightFloorLed i s1).currentFloor = s.currentFloor := by
            rw [lightFloorLed_eq_out, hs1, delay_eq_out]
            rfl
          refine ⟨by simp [hlen], ?_, ?_⟩
          · intro m hm
            rcases List.mem_cons.mp hm with rfl | hm
            · exact hc1
            · rw [hcur m hm, hc1]
          · unfold moveDownLoop
            rw [if_pos hle]
            simp only [hd]
            rw [hlast]
            cases rest <;> rfl

theorem moveUpLoopStates_defined (target : Int) :
    ∀ (fuel : Nat) (i : Int) (s s' : State), moveUpLoop target fuel i s = some s' →
      ∃ mids, moveUpLoopStates target fuel i s = some mids := by
  intro fuel
  induction fuel with
  | zero =>
    intro i s s' h
    unfold moveUpLoop at h
    unfold moveUpLoopStates
    by_cases hle : i ≤ target
    · rw [if_pos hle] at h; cases h
    · rw [if_neg hle]; exact ⟨[], rfl⟩
  | succ f ih =>
    intro i s s' h
    unfold moveUpLoop at h
    unfold moveUpLoopStates
    by_cases hle : i ≤ target
    · rw [if_pos hle] at h
      rw [if_pos hle]
      simp only at h ⊢
      cases hd : displayFloor i (delay 1000 s) with
      | none => rw [hd] at h; cases h
      | some s1 =>
        rw [hd] at h
        simp only at h ⊢
        obtain ⟨rest, hrest⟩ := ih (i + 1) _ s' h
        rw [hrest]
        exact ⟨_, rfl⟩
    · rw [if_neg hle]; exact ⟨[], rfl⟩

theorem moveDownLoopStates_defined (target : Int) :
    ∀ (fuel : Nat) (i : Int) (s s' : State), moveDownLoop target fuel i s = some s' →
      ∃ mids, moveDownLoopStates target fuel i s = some mids := by
  intro fuel
  induction fuel with
  | zero =>
    intro i s s' h
    unfold moveDownLoop at h
    unfold moveDownLoopStates
    by_cases hle : i ≥ target
    · rw [if_pos hle] at h; cases h
    · rw [if_neg hle]; exact ⟨[], rfl⟩
  | succ f ih =>
    intro i s s' h
    unfold moveDownLoop at h
    unfold moveDownLoopStates
    by_cases hle : i ≥ target
    · rw [if_pos hle] at h
      rw [if_pos hle]
      simp only at h ⊢
      cases hd : displayFloor i (delay 1000 s) with
      | none => rw [hd] at h; cases h
      | some s1 =>
        rw [hd] at h
        simp only at h ⊢
        obtain ⟨rest, hrest⟩ := ih (i - 1) _ s' h
        rw [hrest]
        exact ⟨_, rfl⟩
    · rw [if_neg hle]; exact ⟨[], rfl⟩

theorem map_eq_replicate_of_forall (l : List State) (c : Int)
    (h : ∀ m ∈ l, m.currentFloor = c) :
    l.map State.currentFloor = List.replicate l.length c := by
  induction l with
  | nil => rfl
  | cons m l ih =>
    rw [List.map_cons, List.length_cons, List.replicate_succ, h m (List.mem_cons_self _ _),
      ih (fun x hx => h x (List.mem_cons_of_mem _ hx))]

theorem getLast?_history (l : List State) (a b x y : State) :
    (a :: b :: l ++ [x, y]).getLast? = some y := by
  have h : a :: b :: l ++ [x, y] = (a :: b :: l ++ [x]) ++ [y] := by simp
  rw [h, List.getLast?_append]
  rfl

theorem moveToFloorStates_defined (B : Int) (s s' : State) (h : moveToFloor B s = some s') :
    ∃ states, moveToFloorStates B s = some states := by
  unfold moveToFloor at h
  unfold moveToFloorStates
  simp only at h ⊢
  by_cases heq : B = (emit (Event.callMoveToFloor B) s).currentFloor
  · rw [if_pos heq]; exact ⟨_, rfl⟩
  · rw [if_neg heq] at h ⊢
    by_cases hup : B > (emit (Event.callMoveToFloor B) s).currentFloor
    · rw [if_pos hup] at h ⊢
      cases hl : moveUpLoop B (B - (emit (Event.callMoveToFloor B) s).currentFloor).toNat
          ((emit (Event.callMoveToFloor B) s).currentFloor + 1)
          (digitalWrite downLedPin Level.LOW
            (digitalWrite upLedPin Level.HIGH (emit (Event.callMoveToFloor B) s))) with
      | none => rw [hl] at h; cases h
      | some s2 =>
        obtain ⟨mids, hm⟩ := moveUpLoopStates_defined B _ _ _ s2 hl
        rw [hm]
        exact ⟨_, rfl⟩
    · rw [if_neg hup] at h ⊢
      cases hl : moveDownLoop B ((emit (Event.callMoveToFloor B) s).currentFloor - B).toNat
          ((emit (Event.callMoveToFloor B) s).currentFloor - 1)
          (digitalWrite upLedPin Level.LOW
            (digitalWrite downLedPin Level.HIGH (emit (Event.callMoveToFloor B) s))) with
      | none => rw [hl] at h; cases h
      | some s2 =>
        obtain ⟨mids, hm⟩ := moveDownLoopStates_defined B _ _ _ s2 hl
        rw [hm]
        exact ⟨_, rfl⟩

/-- The recorded states end with the state that `moveToFloor` returns, and `currentFloor`
holds the old floor in all of them up to the end of the stepping loop and the target from
the assignment of line 133 on. -/
theorem moveToFloorStates_some (B : Int) (s : State) (states : List State)
    (hne : B ≠ s.currentFloor) (h : moveToFloorStates B s = some states) :
    moveToFloor B s = states.getLast? ∧
      states.map State.currentFloor =
        List.replicate ((B - s.currentFloor).natAbs + 2) s.currentFloor ++ [B, B] := by
  have hcur0 : (emit (Event.callMoveToFloor B) s).currentFloor = s.currentFloor := rfl
  unfold moveToFloorStates at h
  unfold moveToFloor
  simp only [hcur0] at h ⊢
  rw [if_neg hne] at h ⊢
  by_cases hup : B > s.currentFloor
  · rw [if_pos hup] at h ⊢
    cases hl : moveUpLoopStates B (B - s.currentFloor).toNat (s.currentFloor + 1)
        (digitalWrite downLedPin Level.LOW
          (digitalWrite upLedPin Level.HIGH (emit (Event.callMoveToFloor B) s))) with
    | none => rw [hl] at h; cases h
    | some mids =>
      rw [hl] at h
      cases h
      obtain ⟨hlen, hcur, hlast⟩ :=
        moveUpLoopStates_some B (B - s.currentFloor).toNat _ _ _ mids (by omega) hl
      rw [hlast]
      constructor
      · exact (getLast?_history mids _ _ _ _).symm
      · have hmids := map_eq_replicate_of_forall mids s.currentFloor hcur
        have hn : (B - s.currentFloor).natAbs + 2 = mids.length + 1 + 1 := by omega
        rw [hn, List.replicate_succ, List.replicate_succ]
        simp only [List.map_cons, List.map_append, hmids, List.cons_append, List.map_nil]
        rfl
  · rw [if_neg hup] at h ⊢
    cases hl : moveDownLoopStates B (s.currentFloor - B).toNat (s.currentFloor - 1)
        (digitalWrite upLedPin Level.LOW
          (digitalWrite downLedPin Level.HIGH (emit (Event.callMoveToFloor B) s))) with
    | none => rw [hl] at h; cases h
    | some mids =>
      rw [hl] at h
      cases h
      obtain ⟨hlen, hcur, hlast⟩ :=
        moveDownLoopStates_some B (s.currentFloor - B).toNat _ _ _ mids (by omega) hl
      rw [hlast]
      constructor
      · exact (getLast?_history mids _ _ _ _).symm
      · have hmids := map_eq_replicate_of_forall mids s.currentFloor hcur
        have hn : (B - s.currentFloor).natAbs + 2 = mids.length + 1 + 1 := by omega
        rw [hn, List.replicate_succ, List.replicate_succ]
        simp only [List.map_cons, List.map_append, hmids, List.cons_append, List.map_nil]
        rfl

theorem shownFloors_append (a b : List Event) :
    shownFloors (a ++ b) = shownFloors a ++ shownFloors b := by
  induction a with
  | nil => rfl
  | cons e a ih => cases e <;> simp [shownFloors, ih]

theorem shownFloors_filter (evs : List Event) :
    shownFloors (evs.filter Event.isStep) = shownFloors evs := by
  induction evs with
  | nil => rfl
  | cons e evs ih => cases e <;> simp [List.filter, Event.isStep, shownFloors, ih]

theorem shownFloors_flatMap_stepSkeleton (fs : List Int) :
    shownFloors (fs.flatMap stepSkeleton) = fs := by
  induction fs with
  | nil => rfl
  | cons f fs ih =>
    rw [List.flatMap_cons, shownFloors_append, ih]
    rfl

theorem shownFloors_moveEvents (A B : Int) (h : B ≠ A) :
    shownFloors (moveEvents A B) = floorsBetween A B := by
  rw [← shownFloors_filter, filter_isStep_moveEvents A B h]
  have hsplit : Event.callMoveToFloor B :: ((floorsBetween A B).flatMap stepSkeleton ++
      [Event.delay 3000]) = [Event.callMoveToFloor B] ++
      ((floorsBetween A B).flatMap stepSkeleton ++ [Event.delay 3000]) := rfl
  rw [hsplit, shownFloors_append, shownFloors_append, shownFloors_flatMap_stepSkeleton]
  simp [shownFloors]

theorem chain_countUp (n : Nat) :
    ∀ (i : Int), List.Chain (fun x y => y = x + 1) i (countUp (i + 1) n) := by
  induction n with
  | zero => intro i; exact List.Chain.nil
  | succ n ih => intro i; exact List.Chain.cons rfl (ih (i + 1))

theorem chain_countDown (n : Nat) :
    ∀ (i : Int), List.Chain (fun x y => y = x - 1) i (countDown (i - 1) n) := by
  induction n with
  | zero => intro i; exact List.Chain.nil
  | succ n ih => intro i; exact List.Chain.cons rfl (ih (i - 1))

theorem litFloors_append (a b : List Event) :
    litFloors (a ++ b) = litFloors a ++ litFloors b := by
  induction a with
  | nil => rfl
  | cons e a ih => cases e <;> simp [litFloors, ih]

theorem litFloors_filter (evs : List Event) :
    litFloors (evs.filter Event.isStep) = litFloors evs := by
  induction evs with
  | nil => rfl
  | cons e evs ih => cases e <;> simp [List.filter, Event.isStep, litFloors, ih]

theorem litFloors_flatMap_stepSkeleton (fs : List Int) :
    litFloors (fs.flatMap stepSkeleton) = fs := by
  induction fs with
  | nil => rfl
  | cons f fs ih =>
    rw [List.flatMap_cons, litFloors_append, ih]
    rfl

theorem litFloors_moveEvents (A B : Int) (h : B ≠ A) :
    litFloors (moveEvents A B) = floorsBetween A B := by
  rw [← litFloors_filter, filter_isStep_moveEvents A B h]
  have hsplit : Event.callMoveToFloor B :: ((floorsBetween A B).flatMap stepSkeleton ++
      [Event.delay 3000]) = [Event.callMoveToFloor B] ++
      ((floorsBetween A B).flatMap stepSkeleton ++ [Event.delay 3000]) := rfl
  rw [hsplit, litFloors_append, litFloors_append, litFloors_flatMap_stepSkeleton]
  simp [litFloors]

/-- C16 (unit steps), as amended: let `B` differ from `currentFloor = A`.  Whenever
`moveToFloor(B)` runs to completion (it does for all floors `A`, `B` of `1..5`), the floor
passed to `displayFloor` and the floor passed to `lightFloorLed` both step from `A` to `B`
by exactly one unit per loop iteration in the direction of travel (`A+1, ..., B` or
`A-1, ..., B`), each iteration being `delay(1000)`, `displayFloor(i)`, `lightFloorLed(i)`
with the same `i`; the variable `currentFloor` itself keeps the value `A` on entry, after the
direction LEDs are set and after each of the `|B - A|` loop iterations, and changes exactly
once, from `A` to `B`, at the assignment after the loop. -/
theorem C16_unit_steps_amended (s : State) (B : Int) (hne : B ≠ s.currentFloor) :
    ((1 ≤ s.currentFloor ∧ s.currentFloor ≤ 5) → (1 ≤ B ∧ B ≤ 5) →
      ∃ states, moveToFloorStates B s = some states) ∧
    ∀ states, moveToFloorStates B s = some states →
      moveToFloor B s = states.getLast? ∧
      states.map State.currentFloor =
        List.replicate ((B - s.currentFloor).natAbs + 2) s.currentFloor ++ [B, B] ∧
      (∃ s' evs, moveToFloor B s = some s' ∧ s'.trace = s.trace ++ evs ∧
        shownFloors evs = floorsBetween s.currentFloor B ∧
        litFloors evs = floorsBetween s.currentFloor B ∧
        evs.filter Event.isStep = Event.callMoveToFloor B ::
          ((floorsBetween s.currentFloor B).flatMap
            (fun i => [Event.delay 1000, Event.callDisplayFloor i, Event.callLightFloorLed i]) ++
            [Event.delay 3000])) ∧
      (s.currentFloor < B →
        List.Chain (fun x y => y = x + 1) s.currentFloor (floorsBetween s.currentFloor B)) ∧
      (B < s.currentFloor →
        List.Chain (fun x y => y = x - 1) s.currentFloor (floorsBetween s.currentFloor B)) ∧
      (floorsBetween s.currentFloor B).getLast? = some B := by
  constructor
  · intro hA hB
    exact moveToFloorStates_defined B s _ (moveToFloor_eq B s hA hB)
  · intro states h
    obtain ⟨hlast, hvals⟩ := moveToFloorStates_some B s states hne h
    refine ⟨hlast, hvals, ?_, ?_, ?_, ?_⟩
    · cases hm : moveToFloor B s with
      | none =>
        rw [hm] at hlast
        have : states ≠ [] := by
          intro hc
          rw [hc] at hvals
          simp at hvals
        cases hs : states.getLast? with
        | none => exact absurd (List.getLast?_eq_none_iff.mp hs) this
        | some x => rw [hs] at hlast; cases hlast
      | some s' =>
        refine ⟨s', moveEvents s.currentFloor B, rfl, ?_, shownFloors_moveEvents _ _ hne,
          litFloors_moveEvents _ _ hne, filter_isStep_moveEvents _ _ hne⟩
        rw [moveToFloor_some B s s' hm]
        rfl
    · intro hlt
      unfold floorsBetween
      rw [if_pos hlt]
      exact chain_countUp _ _
    · intro hlt
      unfold floorsBetween
      rw [if_neg (by omega)]
      exact chain_countDown _ _
    · obtain ⟨fs, hfs⟩ := floorsBetween_last s.currentFloor B (fun hc => hne hc.symm)
      rw [hfs]
      simp

/-- Worked example for the amended C16: a move from floor 1 to floor 4 passes floors 2, 3,
4 to `displayFloor` and to `lightFloorLed` while `currentFloor` reads 1, 1, 1, 1, 1 and
then 4, 4. -/
theorem C16_unit_steps_amended_witness :
    (4 : Int) ≠ (exampleState [4, 0, 0, 0, 0] 1 1 false).currentFloor ∧
    ∃ states s' evs, moveToFloorStates 4 (exampleState [4, 0, 0, 0, 0] 1 1 false) = some states ∧
      states.map State.currentFloor = [1, 1, 1, 1, 1, 4, 4] ∧
      moveToFloor 4 (exampleState [4, 0, 0, 0, 0] 1 1 false) = some s' ∧
      s'.trace = (exampleState [4, 0, 0, 0, 0] 1 1 false).trace ++ evs ∧
      shownFloors evs = [2, 3, 4] ∧ litFloors evs = [2, 3, 4] ∧
      evs.filter Event.isStep =
        [Event.callMoveToFloor 4,
          Event.delay 1000, Event.callDisplayFloor 2, Event.callLightFloorLed 2,
          Event.delay 1000, Event.callDisplayFloor 3, Event.callLightFloorLed 3,
          Event.delay 1000, Event.callDisplayFloor 4, Event.callLightFloorLed 4,
          Event.delay 3000] := by
  obtain ⟨hdef, hres⟩ :=
    C16_unit_steps_amended (exampleState [4, 0, 0, 0, 0] 1 1 false) 4 (by decide)
  obtain ⟨states, hs⟩ := hdef (by decide) (by decide)
  obtain ⟨_, hvals, ⟨s', evs, hm, htr, hshown, hlit, hsteps⟩, _, _, _⟩ := hres states hs
  exact ⟨by decide, states, s', evs, hs, hvals, hm, htr, hshown, hlit, hsteps⟩

/-- Counterexample to C16 as stated: during `moveToFloor(4)` from floor 1 the successive
values of `currentFloor` are 1, 1, 1, 1, 1, 4, 4; the only change is from 1 to 4, three
units at once, not one unit at a time. -/
theorem C16_counterexample :
    ∃ states, moveToFloorStates 4 (exampleState [4, 0, 0, 0, 0] 1 1 false) = some states ∧
      moveToFloor 4 (exampleState [4, 0, 0, 0, 0] 1 1 false) = states.getLast? ∧
      states.map State.currentFloor = [1, 1, 1, 1, 1, 4, 4] ∧
      unitSteps 1 (states.map State.currentFloor) = false :=
  ⟨_, rfl, rfl, rfl, rfl⟩

end Lift
